import Mathlib

/-!
Verification of the automaton-adapter core of `fst-extra-aut`.

The Rust source is shallowly embedded as follows:

* `f64` costs and accumulated weights become `W := WithTop ℚ` (the code's
  finite weights become rationals, `f64::INFINITY` becomes `⊤`; `NaN` is a
  fatal precondition violation in the source and is not modelled).
* The `WeightedNFA` / `FollowEpsilonNFA` / `DFA` traits of `src/adapters.rs`
  become the structures `WNFA`, `EpsNFA`, `DFAm`.
* Lazy Rust iterators of `(state, cost)` pairs become the lists of the pairs
  they would yield; an `AgendaItem`'s `peek` is the head of its remaining
  edge list.
* `BinaryHeap` (a max-heap under the reversed weight order, i.e. a min-heap
  on `base_weight + peek cost`, with unspecified tie order) becomes a list
  from which `popMin` removes the leftmost item of minimal key.
* The unbounded `while let Some(item) = heap.pop()` loop of
  `BeamSearchAdapter::step_inner` becomes a fuel-indexed recursion returning
  `none` when the fuel runs out before the loop finishes; every `some`
  result is a faithful run of the source loop.
-/

namespace FEA

/-- Weights: `f64` costs embedded as rationals extended with `+∞`. -/
abbrev W : Type := WithTop ℚ

/-- `WeightedNFA` trait from `src/adapters.rs` (lines 10-29): a weighted NFA
with state type `σ` and input symbol type `ι`; `accept` returns the list of
`(next_state, incremental_cost)` pairs its lazy iterator would yield. -/
structure WNFA (σ ι : Type) where
  start : σ
  isMatch : σ → Bool
  canMatch : σ → Bool := fun _ => true
  willAlwaysMatch : σ → Bool := fun _ => false
  accept : σ → ι → List (σ × W)

/-- `FollowEpsilonNFA` trait from `src/adapters.rs` (lines 50-52). -/
structure EpsNFA (σ ι : Type) extends WNFA σ ι where
  followEpsilon : σ → List (σ × W)

/-- `DFA` trait from `src/adapters.rs` (lines 31-48). -/
structure DFAm (σ ι : Type) where
  start : σ
  isMatch : σ → Bool
  canMatch : σ → Bool := fun _ => true
  willAlwaysMatch : σ → Bool := fun _ => false
  accept : σ → ι → σ

/-- `AgendaItem` from `src/adapters.rs` (lines 60-81): `peek` is the head of
`edges`, the `iter` field is its tail. -/
structure AgendaItem (σ : Type) where
  base : W
  edges : List (σ × W)

/-- The heap ordering key of an agenda item: `base_weight + peek cost`, or
`+∞` when the peek is empty (`weight`, `src/adapters.rs` lines 83-87). -/
def itemKey {σ : Type} (it : AgendaItem σ) : W :=
  match it.edges with
  | [] => ⊤
  | (_, c) :: _ => it.base + c

/-- `BinaryHeap::pop` under the reversed `compare_weights` order: remove the
leftmost item of minimal key (the Rust heap's tie order is unspecified). -/
def popMin {σ : Type} : List (AgendaItem σ) → Option (AgendaItem σ × List (AgendaItem σ))
  | [] => none
  | a :: rest =>
    match popMin rest with
    | none => some (a, [])
    | some (b, rest') =>
      if itemKey a ≤ itemKey b then some (a, rest) else some (b, a :: rest')

/-- One iteration of the `while let Some(mut item) = heap.pop()` loop of
`BeamSearchAdapter::step_inner` (`src/adapters.rs` lines 139-165):
either the loop finishes (`done`) or continues with a new
heap/seen-set/result (`cont`). -/
inductive StepOut (σ : Type) where
  | done : List (σ × W) → StepOut σ
  | cont : List (AgendaItem σ) → List σ → List (σ × W) → StepOut σ

/-- The loop body of `step_inner`.  Faithful to `src/adapters.rs` 139-165:
an edge over threshold or of infinite weight is dropped *without* re-pushing
the item; an edge to a seen state is dropped but the item *is* re-pushed;
an admitted edge extends the result, possibly breaks on the beam bound, and
otherwise runs `extra_expand` and re-pushes the item. -/
def stepBody {σ : Type} [DecidableEq σ] (th : W) (beam : Nat)
    (extra : σ → W → List (AgendaItem σ))
    (heap : List (AgendaItem σ)) (seen : List σ) (result : List (σ × W)) :
    StepOut σ :=
  match popMin heap with
  | none => .done result
  | some (item, heap') =>
    match item.edges with
    | [] => .cont heap' seen result
    | (s, c) :: rest =>
      let key := item.base + c
      if th < key ∨ key = ⊤ then .cont heap' seen result
      else if s ∈ seen then .cont (heap' ++ [⟨item.base, rest⟩]) seen result
      else
        let result' := result ++ [(s, key)]
        if beam ≤ result'.length then .done result'
        else .cont ((heap' ++ extra s key) ++ [⟨item.base, rest⟩])
          (s :: seen) result'

/-- `BeamSearchAdapter::step_inner`, fuel-indexed.  A `some` answer is the
value the Rust loop returns; `none` means the fuel ran out first. -/
def stepInner {σ : Type} [DecidableEq σ] (th : W) (beam : Nat)
    (extra : σ → W → List (AgendaItem σ)) :
    Nat → List (AgendaItem σ) → List σ → List (σ × W) → Option (List (σ × W))
  | fuel, heap, seen, result =>
    match stepBody th beam extra heap seen result with
    | .done r => some r
    | .cont heap' seen' result' =>
      match fuel with
      | 0 => none
      | fuel + 1 => stepInner th beam extra fuel heap' seen' result'

/-- The initial heap of `BeamSearchAdapter::step` (`src/adapters.rs` 120-127):
one agenda item per frontier entry, seeded with the entry's accumulated
weight and its `nfa.accept` edge iterator. -/
def initHeap {σ ι : Type} (nfa : WNFA σ ι) (frontier : List (σ × W)) (inp : ι) :
    List (AgendaItem σ) :=
  frontier.map fun e => ⟨e.2, nfa.accept e.1 inp⟩

/-- `BeamSearchAdapter::step` with the trivial `extra_expand` hook, i.e.
`<BeamSearchAdapter as DFA>::accept` (`src/adapters.rs` 192-194). -/
def beamAccept {σ ι : Type} [DecidableEq σ] (nfa : WNFA σ ι) (th : W) (beam : Nat)
    (fuel : Nat) (frontier : List (σ × W)) (inp : ι) : Option (List (σ × W)) :=
  stepInner th beam (fun _ _ => []) fuel (initHeap nfa frontier inp) [] []

/-- `<BeamSearchAdapter as DFA>::start` (`src/adapters.rs` 176-178). -/
def beamStart {σ ι : Type} (nfa : WNFA σ ι) : List (σ × W) :=
  [(nfa.start, 0)]

/-- `is_match` of the beam-search DFA: existential over the frontier
(`src/adapters.rs` 180-182). -/
def frontierIsMatch {σ ι : Type} (nfa : WNFA σ ι) (frontier : List (σ × W)) : Bool :=
  frontier.any fun e => nfa.isMatch e.1

/-- `can_match` of the beam-search DFA (`src/adapters.rs` 184-186). -/
def frontierCanMatch {σ ι : Type} (nfa : WNFA σ ι) (frontier : List (σ × W)) : Bool :=
  frontier.any fun e => nfa.canMatch e.1

/-- `will_always_match` of the beam-search DFA (`src/adapters.rs` 188-190). -/
def frontierWillAlwaysMatch {σ ι : Type} (nfa : WNFA σ ι) (frontier : List (σ × W)) : Bool :=
  frontier.any fun e => nfa.willAlwaysMatch e.1

/-- The `extra_expand` hook of the epsilon-expanding adapter
(`EpsilonExpandingBeamSearchAdapter::expand_epsilon`, `src/adapters.rs`
204-210): push one fresh agenda item seeded with `follow_epsilon`. -/
def epsExtra {σ ι : Type} (nfa : EpsNFA σ ι) (s : σ) (w : W) : List (AgendaItem σ) :=
  [⟨w, nfa.followEpsilon s⟩]

/-- `<EpsilonExpandingBeamSearchAdapter as DFA>::accept`
(`src/adapters.rs` 245-250). -/
def epsAccept {σ ι : Type} [DecidableEq σ] (nfa : EpsNFA σ ι) (th : W) (beam : Nat)
    (fuel : Nat) (frontier : List (σ × W)) (inp : ι) : Option (List (σ × W)) :=
  stepInner th beam (epsExtra nfa) fuel (initHeap nfa.toWNFA frontier inp) [] []

/-- `<EpsilonExpandingBeamSearchAdapter as DFA>::start` (`src/adapters.rs`
217-231): heap seeded from `follow_epsilon(start)`, seen-set and result
pre-seeded with the start state at weight `0`. -/
def epsStart {σ ι : Type} [DecidableEq σ] (nfa : EpsNFA σ ι) (th : W) (beam : Nat)
    (fuel : Nat) : Option (List (σ × W)) :=
  stepInner th beam (epsExtra nfa) fuel (epsExtra nfa nfa.start 0)
    [nfa.start] [(nfa.start, 0)]

/-- Loop body following the words of the specification sentence "Else if
`next_state` is already in the seen-set: continue (do not re-push)": like
`stepBody`, but the agenda item is discarded when its candidate edge hits
the seen-set.  This second definition exists only to be compared with the
source-faithful `stepBody`. -/
def stepBodySpecDropSeen {σ : Type} [DecidableEq σ] (th : W) (beam : Nat)
    (extra : σ → W → List (AgendaItem σ))
    (heap : List (AgendaItem σ)) (seen : List σ) (result : List (σ × W)) :
    StepOut σ :=
  match popMin heap with
  | none => .done result
  | some (item, heap') =>
    match item.edges with
    | [] => .cont heap' seen result
    | (s, c) :: rest =>
      let key := item.base + c
      if th < key ∨ key = ⊤ then .cont heap' seen result
      else if s ∈ seen then .cont heap' seen result
      else
        let result' := result ++ [(s, key)]
        if beam ≤ result'.length then .done result'
        else .cont ((heap' ++ extra s key) ++ [⟨item.base, rest⟩])
          (s :: seen) result'

/-- The loop of the claimed (drop-on-seen) variant. -/
def stepInnerSpecDropSeen {σ : Type} [DecidableEq σ] (th : W) (beam : Nat)
    (extra : σ → W → List (AgendaItem σ)) :
    Nat → List (AgendaItem σ) → List σ → List (σ × W) → Option (List (σ × W))
  | fuel, heap, seen, result =>
    match stepBodySpecDropSeen th beam extra heap seen result with
    | .done r => some r
    | .cont heap' seen' result' =>
      match fuel with
      | 0 => none
      | fuel + 1 => stepInnerSpecDropSeen th beam extra fuel heap' seen' result'

/-- `accept` under the claimed (drop-on-seen) variant of the loop. -/
def beamAcceptSpecDropSeen {σ ι : Type} [DecidableEq σ] (nfa : WNFA σ ι) (th : W)
    (beam : Nat) (fuel : Nat) (frontier : List (σ × W)) (inp : ι) :
    Option (List (σ × W)) :=
  stepInnerSpecDropSeen th beam (fun _ _ => []) fuel (initHeap nfa frontier inp) [] []

/-- A small concrete weighted NFA over `Unit` inputs used to separate the
source behaviour from the claimed drop-on-seen behaviour: frontier states
`0` and `1`, where `0` has the single cheap edge to `2` and `1` has an edge
to `2` (hitting the seen-set) followed by an edge to `3`. -/
def exSeenNFA : WNFA Nat Unit where
  start := 0
  isMatch := fun s => s == 3
  accept := fun s _ =>
    if s = 0 then [(2, ((0:ℚ) : W))]
    else if s = 1 then [(2, ((1:ℚ) : W)), (3, ((1:ℚ) : W))]
    else []

/-- `NextStatesState` from `src/levenshtein/weighted.rs` (lines 20-22).
Unicode scalar values (Rust `char`) are modelled as natural numbers
throughout this development. -/
inductive NextStatesState where
  | Match
  | Insert
  | Substitute
  | Delete
deriving DecidableEq

/-- Internal-loop rank used as a termination measure for the iterator's
state machine (not part of the source). -/
def stateRank : NextStatesState → Nat
  | .Match => 3
  | .Substitute => 2
  | .Insert => 1
  | .Delete => 0

/-- `LevenshteinNextStates` from `src/levenshtein/weighted.rs` (24-31):
the transient state of the lazy edge iterator. -/
structure LevenshteinNextStates where
  chars : Nat
  query : List Nat
  inp : Nat
  state : NextStatesState
  extra_weight : ℚ
  deleted : Bool
deriving DecidableEq

/-- `LevenshteinNextStates::new` (`src/levenshtein/weighted.rs` 33-44). -/
def LevenshteinNextStates.new (chars : Nat) (query : List Nat) (inp : Nat) :
    LevenshteinNextStates :=
  ⟨chars, query, inp, .Match, 0, false⟩

/-- `<LevenshteinNextStates as Iterator>::next`
(`src/levenshtein/weighted.rs` 49-101): one call of the iterator.  The
source's `loop` is the recursion; each arm first advances `self.state`
(and for Delete also `chars`/`extra_weight`/`deleted`) and returns
`Some` exactly where the source does. -/
def levNext : LevenshteinNextStates → Option ((Nat × ℚ) × LevenshteinNextStates)
  | ⟨chars, query, inp, NextStatesState.Match, extra, deleted⟩ =>
    if chars < query.length ∧ query.getD chars 0 = inp then
      some ((chars + 1, 0 + extra), ⟨chars, query, inp, .Substitute, extra, deleted⟩)
    else levNext ⟨chars, query, inp, .Substitute, extra, deleted⟩
  | ⟨chars, query, inp, NextStatesState.Substitute, extra, deleted⟩ =>
    if chars < query.length then
      some ((chars + 1, 1 + extra), ⟨chars, query, inp, .Insert, extra, deleted⟩)
    else levNext ⟨chars, query, inp, .Insert, extra, deleted⟩
  | ⟨chars, query, inp, NextStatesState.Insert, extra, deleted⟩ =>
    if deleted then levNext ⟨chars, query, inp, .Delete, extra, deleted⟩
    else some ((chars, 1 + extra), ⟨chars, query, inp, .Delete, extra, deleted⟩)
  | ⟨chars, query, inp, NextStatesState.Delete, extra, _deleted⟩ =>
    if _h : chars + 1 ≥ query.length then none
    else levNext ⟨chars + 1, query, inp, .Match, extra + 1, true⟩
termination_by m => 4 * (m.query.length + 1 - m.chars) + stateRank m.state
decreasing_by
  all_goals simp [stateRank]
  all_goals omega

/-- Collect the pairs an iterator yields, truncated by `fuel` (every
`some` element is an actual yield of the source iterator; the closed-form
theorem shows the chosen fuel never truncates). -/
def levIterList : Nat → LevenshteinNextStates → List (Nat × ℚ)
  | 0, _ => []
  | fuel + 1, m =>
    match levNext m with
    | none => []
    | some (e, m') => e :: levIterList fuel m'

/-- Closed form of the edge list yielded from the `Match` state: match,
substitute, insert (suppressed after a deletion), then the delete loop. -/
def levEdgesFrom (query : List Nat) (c : Nat) (chars : Nat) (extra : ℚ)
    (deleted : Bool) : List (Nat × ℚ) :=
  (if chars < query.length ∧ query.getD chars 0 = c then
    [(chars + 1, 0 + extra)] else []) ++
  ((if chars < query.length then [(chars + 1, 1 + extra)] else []) ++
  ((if deleted then [] else [(chars, 1 + extra)]) ++
  (if h : chars + 1 ≥ query.length then []
   else levEdgesFrom query c (chars + 1) (extra + 1) true)))
termination_by query.length - chars
decreasing_by omega

/-- Closed form of the remaining edge list from each internal machine
state. -/
def levEdgesState (query : List Nat) (c : Nat) (st : NextStatesState)
    (chars : Nat) (extra : ℚ) (deleted : Bool) : List (Nat × ℚ) :=
  match st with
  | .Match => levEdgesFrom query c chars extra deleted
  | .Substitute =>
    (if chars < query.length then [(chars + 1, 1 + extra)] else []) ++
    ((if deleted then [] else [(chars, 1 + extra)]) ++
    (if chars + 1 ≥ query.length then []
     else levEdgesFrom query c (chars + 1) (extra + 1) true))
  | .Insert =>
    (if deleted then [] else [(chars, 1 + extra)]) ++
    (if chars + 1 ≥ query.length then []
     else levEdgesFrom query c (chars + 1) (extra + 1) true)
  | .Delete =>
    if chars + 1 ≥ query.length then []
    else levEdgesFrom query c (chars + 1) (extra + 1) true

/-- The full edge list of `WeightedLevenshteinNFA::accept` at state `s` on
input `c` (the fuel is sufficient for the iterator to run to `None`). -/
def levAccept (query : List Nat) (s : Nat) (c : Nat) : List (Nat × ℚ) :=
  levIterList (3 * (query.length + 1) + 5) (LevenshteinNextStates.new s query c)

/-- `WeightedLevenshteinNFA` as a weighted NFA
(`src/levenshtein/weighted.rs` 105-129): state = number of consumed query
characters, `is_match ⇔ state = |query|`. -/
def weightedLevNFA (query : List Nat) : WNFA Nat Nat where
  start := 0
  isMatch := fun s => s == query.length
  canMatch := fun _ => true
  willAlwaysMatch := fun _ => false
  accept := fun s c => (levAccept query s c).map fun e => (e.1, ((e.2 : ℚ) : W))

/-- Decoding of the first UTF-8 code unit of a byte list, together with the
remaining bytes.  Mirrors Rust's `str::from_utf8` validation for the first
code unit (including the overlong/surrogate/out-of-range restrictions on
the second byte); `none` covers both "incomplete" and "invalid", which
`DFAUtf8Adapter::accept` treats identically.  Bytes and Unicode scalar
values are modelled as natural numbers. -/
def utf8DecodeFirst : List Nat → Option (Nat × List Nat)
  | [] => none
  | b0 :: rest =>
    if b0 < 0x80 then some (b0, rest)
    else if 0xC2 ≤ b0 ∧ b0 ≤ 0xDF then
      match rest with
      | b1 :: r =>
        if 0x80 ≤ b1 ∧ b1 ≤ 0xBF then some ((b0 - 0xC0) * 64 + (b1 - 0x80), r)
        else none
      | [] => none
    else if 0xE0 ≤ b0 ∧ b0 ≤ 0xEF then
      match rest with
      | b1 :: b2 :: r =>
        if (if b0 = 0xE0 then 0xA0 ≤ b1 ∧ b1 ≤ 0xBF
            else if b0 = 0xED then 0x80 ≤ b1 ∧ b1 ≤ 0x9F
            else 0x80 ≤ b1 ∧ b1 ≤ 0xBF) ∧ (0x80 ≤ b2 ∧ b2 ≤ 0xBF) then
          some ((b0 - 0xE0) * 4096 + (b1 - 0x80) * 64 + (b2 - 0x80), r)
        else none
      | _ => none
    else if 0xF0 ≤ b0 ∧ b0 ≤ 0xF4 then
      match rest with
      | b1 :: b2 :: b3 :: r =>
        if (if b0 = 0xF0 then 0x90 ≤ b1 ∧ b1 ≤ 0xBF
            else if b0 = 0xF4 then 0x80 ≤ b1 ∧ b1 ≤ 0x8F
            else 0x80 ≤ b1 ∧ b1 ≤ 0xBF) ∧ (0x80 ≤ b2 ∧ b2 ≤ 0xBF) ∧
            (0x80 ≤ b3 ∧ b3 ≤ 0xBF) then
          some ((b0 - 0xF0) * 262144 + (b1 - 0x80) * 4096 + (b2 - 0x80) * 64
            + (b3 - 0x80), r)
        else none
      | _ => none
    else none

/-- Whole-buffer UTF-8 validity (`str::from_utf8` succeeding), by repeated
first-code-unit decoding; the fuel is the buffer length, sufficient since
each code unit consumes at least one byte. -/
def utf8ValidListAux : Nat → List Nat → Bool
  | _, [] => true
  | 0, _ :: _ => false
  | fuel + 1, b :: l =>
    match utf8DecodeFirst (b :: l) with
    | some (_, r) => utf8ValidListAux fuel r
    | none => false

/-- `str::from_utf8(buffer).is_ok()`. -/
def utf8ValidList (l : List Nat) : Bool :=
  utf8ValidListAux l.length l

/-- `DFAUtf8Adapter::accept` (`src/adapters.rs` 275-289): append the byte;
if the buffer now parses as UTF-8, feed its first scalar to the inner DFA
and clear the buffer, else keep the extended buffer and the inner state. -/
def utf8Accept {σ : Type} (inner : DFAm σ Nat) (st : σ × List Nat) (b : Nat) :
    σ × List Nat :=
  let buf := st.2 ++ [b]
  match utf8DecodeFirst buf with
  | some (ch, r) =>
    if utf8ValidList r then (inner.accept st.1 ch, []) else (st.1, buf)
  | none => (st.1, buf)

/-- `DFAUtf8Adapter::start` (`src/adapters.rs` 259-261). -/
def utf8Start {σ : Type} (inner : DFAm σ Nat) : σ × List Nat :=
  (inner.start, [])

/-- `DFAUtf8Adapter::is_match` (`src/adapters.rs` 263-265): empty buffer
and inner match. -/
def utf8IsMatch {σ : Type} (inner : DFAm σ Nat) (st : σ × List Nat) : Bool :=
  st.2.length = 0 && inner.isMatch st.1

/-- `DFAUtf8Adapter::can_match` (`src/adapters.rs` 267-269). -/
def utf8CanMatch {σ : Type} (inner : DFAm σ Nat) (st : σ × List Nat) : Bool :=
  inner.canMatch st.1

/-- `DFAUtf8Adapter::will_always_match` (`src/adapters.rs` 271-273). -/
def utf8WillAlwaysMatch {σ : Type} (inner : DFAm σ Nat) (st : σ × List Nat) : Bool :=
  inner.willAlwaysMatch st.1

/-- Fold the UTF-8 adapter over a byte sequence. -/
def utf8Run {σ : Type} (inner : DFAm σ Nat) (st : σ × List Nat)
    (bytes : List Nat) : σ × List Nat :=
  bytes.foldl (utf8Accept inner) st

/-- Fold the inner character DFA over a scalar sequence. -/
def innerRun {σ : Type} (inner : DFAm σ Nat) (s : σ) (cs : List Nat) : σ :=
  cs.foldl inner.accept s

/-- A Unicode scalar value: below 0x110000 and not a surrogate. -/
abbrev ScalarValid (c : Nat) : Prop := c < 0x110000 ∧ (c < 0xD800 ∨ 0xE000 ≤ c)

/-- The UTF-8 encoding of one Unicode scalar value. -/
def utf8EncodeChar (c : Nat) : List Nat :=
  if c < 0x80 then [c]
  else if c < 0x800 then [0xC0 + c / 64, 0x80 + c % 64]
  else if c < 0x10000 then
    [0xE0 + c / 4096, 0x80 + (c / 64) % 64, 0x80 + c % 64]
  else
    [0xF0 + c / 262144, 0x80 + (c / 4096) % 64, 0x80 + (c / 64) % 64,
      0x80 + c % 64]

/-- The UTF-8 encoding of a scalar sequence. -/
def utf8Encode (cs : List Nat) : List Nat :=
  cs.flatMap utf8EncodeChar

/-- A trivial inner DFA over `Unit`, used for concrete UTF-8 runs. -/
def trivDFA : DFAm Unit Nat where
  start := ()
  isMatch := fun _ => true
  accept := fun s _ => s

/-- One FST transition `(inp byte, output value, child address)`; the fst
crate's `Output` is a `u64` with `cat` = addition, modelled as `Nat`. -/
structure FstTransition where
  inp : Nat
  out : Nat
  addr : Nat
deriving DecidableEq

/-- One FST node: indexed transitions, finality, final output. -/
structure FstNode where
  trans : List FstTransition
  is_final : Bool
  final_output : Nat

/-- The FST collaborator: addressable nodes and a root address. -/
structure Fst where
  node : Nat → FstNode
  rootAddr : Nat

/-- `StreamState` from `src/ext/raw.rs` (6-12): one stack frame.  The Rust
frame holds the node value; we store its address (`node`) and fetch the
data through the FST, which is equivalent since `Node` knows its `addr`. -/
structure StreamFrame (σ : Type) where
  node : Nat
  trans : Nat
  out : Nat
  aut_state : σ

/-- `SimpleStateStream` state (`src/ext/raw.rs` 14-19): the shared key
buffer `inp` and the frame stack (head = top of the Rust `Vec`). -/
structure StreamSt (σ : Type) where
  inp : List Nat
  stack : List (StreamFrame σ)

/-- Outcome of one iteration of the `while let Some(state) = stack.pop()`
loop of `SimpleStateStream::next` (`src/ext/raw.rs` 42-82). -/
inductive StreamStep (σ : Type) where
  | emit : (List Nat × Nat × σ) → StreamSt σ → StreamStep σ
  | cont : StreamSt σ → StreamStep σ
  | done : StreamStep σ

/-- One loop iteration of `SimpleStateStream::next` (`src/ext/raw.rs`
43-79): pop the top frame; prune (popping one key byte unless at the root)
when its transitions are exhausted or the automaton cannot match; otherwise
take the current transition, push the key byte, re-push the parent with
`trans + 1`, push the child, and emit when the child node is final and the
automaton state matches. -/
def streamBody {σ : Type} (fst : Fst) (aut : DFAm σ Nat) (st : StreamSt σ) :
    StreamStep σ :=
  match st.stack with
  | [] => .done
  | frame :: rest =>
    let node := fst.node frame.node
    if node.trans.length ≤ frame.trans ∨ aut.canMatch frame.aut_state = false then
      if frame.node ≠ fst.rootAddr then .cont ⟨st.inp.dropLast, rest⟩
      else .cont ⟨st.inp, rest⟩
    else
      let t := node.trans.getD frame.trans ⟨0, 0, 0⟩
      let out2 := frame.out + t.out
      let next_state := aut.accept frame.aut_state t.inp
      let inp2 := st.inp ++ [t.inp]
      let stack2 : List (StreamFrame σ) :=
        ⟨t.addr, 0, out2, next_state⟩ ::
        ⟨frame.node, frame.trans + 1, frame.out, frame.aut_state⟩ :: rest
      if (fst.node t.addr).is_final && aut.isMatch next_state then
        .emit (inp2, out2 + (fst.node t.addr).final_output, next_state) ⟨inp2, stack2⟩
      else .cont ⟨inp2, stack2⟩

/-- The stream of matches produced by repeated `next()` calls, collected
over at most `fuel` loop iterations (a prefix of the full run when the
fuel runs out first). -/
def streamEmits {σ : Type} (fst : Fst) (aut : DFAm σ Nat) :
    Nat → StreamSt σ → List (List Nat × Nat × σ)
  | 0, _ => []
  | fuel + 1, st =>
    match streamBody fst aut st with
    | .done => []
    | .cont s2 => streamEmits fst aut fuel s2
    | .emit e s2 => e :: streamEmits fst aut fuel s2

/-- `SimpleStateStream::new` (`src/ext/raw.rs` 21-36): root frame with
transition index 0, zero output, and the automaton start state. -/
def streamStart {σ : Type} (fst : Fst) (aut : DFAm σ Nat) : StreamSt σ :=
  ⟨[], [⟨fst.rootAddr, 0, 0, aut.start⟩]⟩

/-- Fold a byte DFA over a byte sequence. -/
def dfaRun {σ : Type} (aut : DFAm σ Nat) (s : σ) (bytes : List Nat) : σ :=
  bytes.foldl aut.accept s

/-- The stack/key-buffer invariant of the joint stream: the stack (head =
top) is the path of the current descent; the bottom frame is the root with
the empty path; each deeper frame was entered through transition
`trans - 1` of the frame below it, whose byte label is the corresponding
byte of `inp`, and carries the automaton state obtained by accepting that
byte.  `inp` restricted by `dropLast` is the path of each lower frame. -/
def FrameChain {σ : Type} (fst : Fst) (aut : DFAm σ Nat) :
    List Nat → List (StreamFrame σ) → Prop
  | _, [] => False
  | inp, [f] => f.node = fst.rootAddr ∧ inp = [] ∧ f.aut_state = aut.start
  | inp, f :: g :: rest =>
    f.node ≠ fst.rootAddr ∧
    FrameChain fst aut inp.dropLast (g :: rest) ∧
    1 ≤ g.trans ∧ g.trans - 1 < (fst.node g.node).trans.length ∧
    ((fst.node g.node).trans.getD (g.trans - 1) ⟨0, 0, 0⟩).addr = f.node ∧
    inp.dropLast ++
      [((fst.node g.node).trans.getD (g.trans - 1) ⟨0, 0, 0⟩).inp] = inp ∧
    f.aut_state = aut.accept g.aut_state
      ((fst.node g.node).trans.getD (g.trans - 1) ⟨0, 0, 0⟩).inp

/-- Stream-state invariant: empty (drained) stack or a well-formed chain. -/
def StreamInv {σ : Type} (fst : Fst) (aut : DFAm σ Nat) (st : StreamSt σ) : Prop :=
  st.stack = [] ∨ FrameChain fst aut st.inp st.stack

/-- Every pending continuation of the stack is lexicographically above
`key`: for each frame (with its path given by iterated `dropLast`), every
not-yet-explored transition label leads only to keys above `key`. -/
def DomChain {σ : Type} (fst : Fst) (key : List Nat) :
    List Nat → List (StreamFrame σ) → Prop
  | _, [] => True
  | inp, f :: rest =>
    (∀ j, f.trans ≤ j → j < (fst.node f.node).trans.length →
      List.Lex (· < ·) key
        (inp ++ [((fst.node f.node).trans.getD j ⟨0, 0, 0⟩).inp])) ∧
    DomChain fst key inp.dropLast rest

/-- Dominance for a stream state. -/
def StreamDom {σ : Type} (fst : Fst) (key : List Nat) (st : StreamSt σ) : Prop :=
  DomChain fst key st.inp st.stack

/-- Strictly increasing transition labels at every node. -/
def FstSorted (fst : Fst) : Prop :=
  ∀ a, List.Pairwise (fun t1 t2 => t1.inp < t2.inp) (fst.node a).trans

/-- No transition targets the root (the fst crate writes the root node
last, so no child address can equal the root address). -/
def FstRootFree (fst : Fst) : Prop :=
  ∀ a t, t ∈ (fst.node a).trans → t.addr ≠ fst.rootAddr

/-- A concrete three-node FST: root at address 2 with transitions on bytes
97 and 98 to final leaf nodes 0 and 1. -/
def exFst : Fst where
  node := fun a =>
    if a = 2 then ⟨[⟨97, 1, 0⟩, ⟨98, 2, 1⟩], false, 0⟩
    else ⟨[], true, 0⟩
  rootAddr := 2

/-- A concrete byte DFA whose single Bool state records "still viable";
it stays viable only while reading byte 97. -/
def exPruneDFA : DFAm Bool Nat where
  start := true
  isMatch := fun s => s
  canMatch := fun s => s
  willAlwaysMatch := fun _ => false
  accept := fun s b => s && (b == 97)

/-- Number of loop iterations the plain beam step can take on a heap: one
per item plus one per edge. -/
def heapMeasure {σ : Type} (heap : List (AgendaItem σ)) : Nat :=
  (heap.map (fun it => it.edges.length + 1)).sum

/-- Minimum weight at which an item's remaining edges reach state `s`. -/
def itemMinTo {σ : Type} [DecidableEq σ] (it : AgendaItem σ) (s : σ) : W :=
  (it.edges.filterMap
    (fun e => if e.1 = s then some (it.base + e.2) else none)).foldr min ⊤

/-- Minimum weight at which the heap's remaining edges reach state `s`. -/
def minWTo {σ : Type} [DecidableEq σ] (heap : List (AgendaItem σ)) (s : σ) : W :=
  (heap.map (fun it => itemMinTo it s)).foldr min ⊤

/-- The weight a frontier assigns to an NFA state (`⊤` when absent). -/
def lookupW {σ : Type} [DecidableEq σ] (fr : List (σ × W)) (s : σ) : W :=
  match fr.find? (fun e => decide (e.1 = s)) with
  | some e => e.2
  | none => ⊤

/-- One ideal (unpruned) weighted-subset-construction step of the
Levenshtein NFA: the cheapest way to reach state `s` from the cost
function `D` by one `accept` edge on input `c`. -/
def levStepD (query : List Nat) (D : Nat → W) (c : Nat) : Nat → W :=
  fun s => ((List.range (query.length + 1)).map (fun s0 =>
    itemMinTo ⟨D s0, (weightedLevNFA query).accept s0 c⟩ s)).foldr min ⊤

/-- The cost function of the deletion-restricted Levenshtein automaton
after consuming the scalar sequence `ks`: the fold of the ideal step from
the point mass at state 0. -/
def levD (query : List Nat) (ks : List Nat) : Nat → W :=
  ks.foldl (levStepD query) (fun s => if s = 0 then (0 : W) else ⊤)

/-- A beam width sufficient to never hit the beam bound for query length
`n` (at least frontier size + total edge count + 1 at every step). -/
def levBeamBound (n : Nat) : Nat := (n + 1) * (3 * (n + 1) + 8) + 2

/-- The beam-search DFA over the weighted Levenshtein NFA (the middle
layer of `LevenshteinStack`, `src/levenshtein/weighted.rs` 131-140); its
`accept` runs the loop with enough fuel for the loop to finish. -/
def levBeamDFA (query : List Nat) (th : W) (beam : Nat) :
    DFAm (List (Nat × W)) Nat where
  start := beamStart (weightedLevNFA query)
  isMatch := fun fr => frontierIsMatch (weightedLevNFA query) fr
  canMatch := fun fr => frontierCanMatch (weightedLevNFA query) fr
  willAlwaysMatch := fun fr => frontierWillAlwaysMatch (weightedLevNFA query) fr
  accept := fun fr c =>
    (beamAccept (weightedLevNFA query) th beam
      (heapMeasure (initHeap (weightedLevNFA query) fr c)) fr c).getD []

/-- `get_levenshtein_weights` (`src/levenshtein/weighted.rs` 142-155):
replay the byte sequence through `AutomatonDFAAdapter(DFAUtf8Adapter(
BeamSearchAdapter(WeightedLevenshteinNFA)))`, filter the final frontier by
the NFA's `is_match`, and take the minimum weight; `none` models the
`unwrap()` panic on an empty weight sequence. -/
def getLevWeights (query : List Nat) (th : W) (beam : Nat)
    (result : List Nat) : Option W :=
  let final := utf8Run (levBeamDFA query th beam)
    (utf8Start (levBeamDFA query th beam)) result
  let ws := final.1.filterMap
    (fun e => if e.1 = query.length then some e.2 else none)
  match ws with
  | [] => none
  | w :: rest => some (rest.foldl min w)

/-- The (true) Levenshtein edit distance between two scalar sequences. -/
def levDist : List Nat → List Nat → Nat
  | [], ys => ys.length
  | x :: xs, [] => (x :: xs).length
  | x :: xs, y :: ys =>
    if x = y then levDist xs ys
    else 1 + min (levDist xs (y :: ys)) (min (levDist (x :: xs) ys) (levDist xs ys))
termination_by xs ys => xs.length + ys.length
decreasing_by
  all_goals simp
  all_goals omega

/-- Invariant scaffolding: every edge of every agenda item describes a pair
admissible for the relation `R` at its accumulated weight. -/
def HeapOk {σ : Type} (R : σ → W → Prop) (heap : List (AgendaItem σ)) : Prop :=
  ∀ it ∈ heap, ∀ e ∈ it.edges, R e.1 (it.base + e.2)

/-- Invariant scaffolding: the seen-set holds exactly the NFA states of the
result frontier. -/
def SeenOk {σ : Type} (seen : List σ) (result : List (σ × W)) : Prop :=
  ∀ x, x ∈ seen ↔ x ∈ result.map Prod.fst

/-- Invariant scaffolding: a frontier entry admitted by the loop: it is
`R`-reachable, within threshold, and finite. -/
def Good {σ : Type} (R : σ → W → Prop) (th : W) (e : σ × W) : Prop :=
  R e.1 e.2 ∧ e.2 ≤ th ∧ e.2 ≠ ⊤

/-- One-step reachability for the plain beam adapter: `(s, w)` arises from
some pre-state frontier entry by one `nfa.accept` edge on `inp`. -/
inductive StepReach {σ ι : Type} (nfa : WNFA σ ι) (frontier : List (σ × W))
    (inp : ι) : σ → W → Prop where
  | one (p : σ × W) (hp : p ∈ frontier) (s : σ) (c : W)
      (he : (s, c) ∈ nfa.accept p.1 inp) : StepReach nfa frontier inp s (p.2 + c)

/-- Reachability for the epsilon-expanding adapter's `accept`: one
`nfa.accept` edge followed by a chain of `follow_epsilon` edges. -/
inductive EpsCloseReach {σ ι : Type} (nfa : EpsNFA σ ι) (frontier : List (σ × W))
    (inp : ι) : σ → W → Prop where
  | one (p : σ × W) (hp : p ∈ frontier) (s : σ) (c : W)
      (he : (s, c) ∈ nfa.accept p.1 inp) : EpsCloseReach nfa frontier inp s (p.2 + c)
  | eps (s : σ) (w : W) (h : EpsCloseReach nfa frontier inp s w) (s' : σ) (c : W)
      (he : (s', c) ∈ nfa.followEpsilon s) : EpsCloseReach nfa frontier inp s' (w + c)

/-- Reachability for the epsilon-expanding adapter's `start`: a nonempty
chain of `follow_epsilon` edges from the NFA start state at weight `0`. -/
inductive EpsStartReach {σ ι : Type} (nfa : EpsNFA σ ι) : σ → W → Prop where
  | one (s : σ) (c : W) (he : (s, c) ∈ nfa.followEpsilon nfa.start) :
      EpsStartReach nfa s ((0 : W) + c)
  | eps (s : σ) (w : W) (h : EpsStartReach nfa s w) (s' : σ) (c : W)
      (he : (s', c) ∈ nfa.followEpsilon s) : EpsStartReach nfa s' (w + c)

/-- The concrete epsilon NFA of the specification's scenario 6: states
`0 = A`, `1 = B`, `2 = C`, zero-cost epsilon edges `A → B → C`, `C` final,
no input-consuming edges. -/
def exEpsNFA : EpsNFA Nat Unit where
  start := 0
  isMatch := fun s => s == 2
  accept := fun _ _ => []
  followEpsilon := fun s =>
    if s = 0 then [(1, ((0:ℚ) : W))]
    else if s = 1 then [(2, ((0:ℚ) : W))]
    else []

/-- Invariant scaffolding for the exhaustive (`threshold = +∞`, huge beam)
run of the beam step: every agenda item's remaining edge list is sorted by
cost, so the item's heap key under-approximates every edge it can still
deliver (the Dijkstra property the `BinaryHeap` relies on). -/
def EdgesSorted {σ : Type} (heap : List (AgendaItem σ)) : Prop :=
  ∀ it ∈ heap, it.edges.Pairwise (fun e1 e2 => e1.2 ≤ e2.2)

/-- The Dijkstra loop invariant of `step_inner` at `threshold = +∞` with
the trivial `extra_expand` hook, relative to the ground-truth cost `m`:
edges sorted; admitted entries carry exactly `m` and are finite; the
seen-set mirrors the result; and every unseen state's cheapest remaining
heap edge still realises `m`. -/
def DijkInv {σ : Type} [DecidableEq σ] (m : σ → W) (heap : List (AgendaItem σ))
    (seen : List σ) (result : List (σ × W)) : Prop :=
  EdgesSorted heap ∧
  (∀ e ∈ result, e.2 = m e.1 ∧ e.2 ≠ ⊤) ∧
  SeenOk seen result ∧
  (result.map Prod.fst).Nodup ∧
  (∀ s, s ∉ seen → minWTo heap s = m s)

/-- A frontier of the Levenshtein beam DFA faithfully represents a cost
function `D` on the NFA states `0 .. n`: entries are exactly the states of
finite cost, each labelled with its cost. -/
def Represents (n : Nat) (fr : List (Nat × W)) (D : Nat → W) : Prop :=
  (fr.map Prod.fst).Nodup ∧
  (∀ e ∈ fr, e.1 ≤ n ∧ e.2 = D e.1 ∧ e.2 ≠ ⊤) ∧
  (∀ s, s ≤ n → D s ≠ ⊤ → s ∈ fr.map Prod.fst) ∧
  (∀ s, n < s → D s = ⊤)

theorem levIterList_congr {m₁ m₂ : LevenshteinNextStates}
    (h : levNext m₁ = levNext m₂) :
    ∀ fuel, levIterList fuel m₁ = levIterList fuel m₂ := by
  intro fuel
  cases fuel with
  | zero => rfl
  | succ fuel => rw [levIterList, levIterList, h]

theorem levIterList_state_eq (query : List Nat) (c : Nat) :
    ∀ (fuel chars : Nat) (extra : ℚ) (deleted : Bool) (st : NextStatesState),
    3 * (query.length + 1 - chars) + stateRank st + 1 ≤ fuel →
    levIterList fuel ⟨chars, query, c, st, extra, deleted⟩ =
      levEdgesState query c st chars extra deleted := by
  intro fuel
  induction fuel with
  | zero =>
    intro chars extra deleted st h
    exact absurd h (by omega)
  | succ fuel ih =>
    have hR_SI : ∀ (ch : Nat) (ex : ℚ) (dl : Bool),
        levEdgesState query c .Substitute ch ex dl =
          (if ch < query.length then [(ch + 1, 1 + ex)] else []) ++
            levEdgesState query c .Insert ch ex dl := fun _ _ _ => rfl
    have hR_ID : ∀ (ch : Nat) (ex : ℚ) (dl : Bool),
        levEdgesState query c .Insert ch ex dl =
          (if dl then [] else [(ch, 1 + ex)]) ++
            levEdgesState query c .Delete ch ex dl := fun _ _ _ => rfl
    have hR_D : ∀ (ch : Nat) (ex : ℚ) (dl : Bool),
        levEdgesState query c .Delete ch ex dl =
          if ch + 1 ≥ query.length then []
          else levEdgesFrom query c (ch + 1) (ex + 1) true := fun _ _ _ => rfl
    have hR_MS : ∀ (ch : Nat) (ex : ℚ) (dl : Bool),
        levEdgesState query c .Match ch ex dl =
          (if ch < query.length ∧ query.getD ch 0 = c then
            [(ch + 1, 0 + ex)] else []) ++
            levEdgesState query c .Substitute ch ex dl := by
      intro ch ex dl
      show levEdgesFrom query c ch ex dl = _
      rw [levEdgesFrom]
      simp only [dite_eq_ite]
      rfl
    -- one full yield from the Match machine state, assuming ch < len
    -- (as established by the Delete guard), lands in Substitute or Insert
    have hMatchStep : ∀ (ch : Nat) (ex : ℚ),
        ch < query.length →
        3 * (query.length + 1 - ch) + 3 ≤ fuel →
        levIterList (fuel + 1) ⟨ch, query, c, .Match, ex, true⟩ =
          levEdgesState query c .Match ch ex true := by
      intro ch ex hlt hf
      by_cases h1 : ch < query.length ∧ query.getD ch 0 = c
      · have hn : levNext ⟨ch, query, c, .Match, ex, true⟩ =
            some ((ch + 1, 0 + ex), ⟨ch, query, c, .Substitute, ex, true⟩) := by
          rw [levNext.eq_def]
          dsimp only
          rw [if_pos h1]
        simp only [levIterList, hn]
        rw [ih ch ex true .Substitute (by simp only [stateRank]; omega)]
        rw [hR_MS, if_pos h1]
        rfl
      · have hn : levNext ⟨ch, query, c, .Match, ex, true⟩ =
            levNext ⟨ch, query, c, .Substitute, ex, true⟩ := by
          conv_lhs => rw [levNext.eq_def]
          dsimp only
          rw [if_neg h1]
        have hn2 : levNext ⟨ch, query, c, .Substitute, ex, true⟩ =
            some ((ch + 1, 1 + ex), ⟨ch, query, c, .Insert, ex, true⟩) := by
          rw [levNext.eq_def]
          dsimp only
          rw [if_pos hlt]
        rw [levIterList_congr hn (fuel + 1)]
        simp only [levIterList, hn2]
        rw [ih ch ex true .Insert (by simp only [stateRank]; omega)]
        rw [hR_MS, if_neg h1, hR_SI, if_pos hlt]
        rfl
    have hDelCase : ∀ (ch : Nat) (ex : ℚ) (dl : Bool),
        3 * (query.length + 1 - ch) + 1 ≤ fuel + 1 →
        levIterList (fuel + 1) ⟨ch, query, c, .Delete, ex, dl⟩ =
          levEdgesState query c .Delete ch ex dl := by
      intro ch ex dl hf
      by_cases hg : ch + 1 ≥ query.length
      · have hn : levNext ⟨ch, query, c, .Delete, ex, dl⟩ = none := by
          rw [levNext.eq_def]
          dsimp only
          rw [dif_pos hg]
        simp only [levIterList, hn]
        rw [hR_D, if_pos hg]
      · have hn : levNext ⟨ch, query, c, .Delete, ex, dl⟩ =
            levNext ⟨ch + 1, query, c, .Match, ex + 1, true⟩ := by
          conv_lhs => rw [levNext.eq_def]
          dsimp only
          rw [dif_neg hg]
        rw [levIterList_congr hn (fuel + 1)]
        rw [hMatchStep (ch + 1) (ex + 1) (by omega) (by omega)]
        rw [hR_D, if_neg hg]
        rfl
    have hInsCase : ∀ (ch : Nat) (ex : ℚ) (dl : Bool),
        3 * (query.length + 1 - ch) + 2 ≤ fuel + 1 →
        levIterList (fuel + 1) ⟨ch, query, c, .Insert, ex, dl⟩ =
          levEdgesState query c .Insert ch ex dl := by
      intro ch ex dl hf
      cases dl with
      | true =>
        have hn : levNext ⟨ch, query, c, .Insert, ex, true⟩ =
            levNext ⟨ch, query, c, .Delete, ex, true⟩ := by
          conv_lhs => rw [levNext.eq_def]
          simp
        rw [levIterList_congr hn (fuel + 1)]
        rw [hDelCase ch ex true (by omega)]
        rw [hR_ID]
        rfl
      | false =>
        have hn : levNext ⟨ch, query, c, .Insert, ex, false⟩ =
            some ((ch, 1 + ex), ⟨ch, query, c, .Delete, ex, false⟩) := by
          rw [levNext.eq_def]
          simp
        simp only [levIterList, hn]
        rw [ih ch ex false .Delete (by simp only [stateRank]; omega)]
        rw [hR_ID]
        rfl
    have hSubCase : ∀ (ch : Nat) (ex : ℚ) (dl : Bool),
        3 * (query.length + 1 - ch) + 3 ≤ fuel + 1 →
        levIterList (fuel + 1) ⟨ch, query, c, .Substitute, ex, dl⟩ =
          levEdgesState query c .Substitute ch ex dl := by
      intro ch ex dl hf
      by_cases h2 : ch < query.length
      · have hn : levNext ⟨ch, query, c, .Substitute, ex, dl⟩ =
            some ((ch + 1, 1 + ex), ⟨ch, query, c, .Insert, ex, dl⟩) := by
          rw [levNext.eq_def]
          dsimp only
          rw [if_pos h2]
        simp only [levIterList, hn]
        rw [ih ch ex dl .Insert (by simp only [stateRank]; omega)]
        rw [hR_SI, if_pos h2]
        rfl
      · have hn : levNext ⟨ch, query, c, .Substitute, ex, dl⟩ =
            levNext ⟨ch, query, c, .Insert, ex, dl⟩ := by
          conv_lhs => rw [levNext.eq_def]
          dsimp only
          rw [if_neg h2]
        rw [levIterList_congr hn (fuel + 1)]
        rw [hInsCase ch ex dl (by omega)]
        rw [hR_SI, if_neg h2]
        rfl
    intro chars extra deleted st hb
    cases st with
    | Match =>
      by_cases h1 : chars < query.length ∧ query.getD chars 0 = c
      · have hn : levNext ⟨chars, query, c, .Match, extra, deleted⟩ =
            some ((chars + 1, 0 + extra),
              ⟨chars, query, c, .Substitute, extra, deleted⟩) := by
          rw [levNext.eq_def]
          dsimp only
          rw [if_pos h1]
        simp only [levIterList, hn]
        rw [ih chars extra deleted .Substitute
          (by simp only [stateRank] at hb ⊢; omega)]
        rw [hR_MS, if_pos h1]
        rfl
      · have hn : levNext ⟨chars, query, c, .Match, extra, deleted⟩ =
            levNext ⟨chars, query, c, .Substitute, extra, deleted⟩ := by
          conv_lhs => rw [levNext.eq_def]
          dsimp only
          rw [if_neg h1]
        rw [levIterList_congr hn (fuel + 1)]
        rw [hSubCase chars extra deleted
          (by simp only [stateRank] at hb; omega)]
        rw [hR_MS, if_neg h1]
        rfl
    | Substitute =>
      exact hSubCase chars extra deleted (by simp only [stateRank] at hb; omega)
    | Insert =>
      exact hInsCase chars extra deleted (by simp only [stateRank] at hb; omega)
    | Delete =>
      exact hDelCase chars extra deleted (by simp only [stateRank] at hb; omega)

/-- C8: the Levenshtein edge iterator started at state `s` on input `c`
yields exactly the closed-form list `levEdgesFrom query c s 0 false`: first
the Match edge `(s+1, extra)` (only if `s < |query|` and `query[s] = c`),
then Substitute `(s+1, 1+extra)` (only if `s < |query|`), then Insert
`(s, 1+extra)` (only if no deletion has occurred — the recursive tail sets
`deleted := true`, so the Insert edge is never yielded after a Delete),
then the Delete loop which advances `s` by one, adds 1 to `extra`, sets the
deleted flag and repeats Match/Substitute from the new position, stopping
when `s + 1 ≥ |query|`.  Any fuel past the iterator's yield count gives the
same list; `levAccept` uses such a fuel. -/
theorem lev_iterator_closed_form (query : List Nat) (s c : Nat) (fuel : Nat)
    (h : 3 * (query.length + 1) + 4 ≤ fuel) :
    levIterList fuel (LevenshteinNextStates.new s query c) =
      levEdgesFrom query c s 0 false ∧
    levAccept query s c = levEdgesFrom query c s 0 false := by
  constructor
  · exact levIterList_state_eq query c fuel s 0 false .Match
      (by simp only [stateRank]; omega)
  · exact levIterList_state_eq query c (3 * (query.length + 1) + 5) s 0 false .Match
      (by simp only [stateRank]; omega)

/-- Witness for `lev_iterator_closed_form` at query "ab", input 'a'. -/
theorem lev_iterator_closed_form_witness :
    3 * (([97, 98] : List Nat).length + 1) + 4 ≤ 13 ∧
    (levIterList 13 (LevenshteinNextStates.new 0 [97, 98] 97) =
      levEdgesFrom [97, 98] 97 0 0 false ∧
     levAccept [97, 98] 0 97 = levEdgesFrom [97, 98] 97 0 0 false) :=
  ⟨by norm_num, lev_iterator_closed_form [97, 98] 0 97 13 (by norm_num)⟩

theorem utf8EncodeChar_length (c : Nat) :
    1 ≤ (utf8EncodeChar c).length ∧ (utf8EncodeChar c).length ≤ 4 := by
  unfold utf8EncodeChar
  split
  · simp
  · split
    · simp
    · split <;> simp

theorem utf8DecodeFirst_encode (c : Nat) (hv : ScalarValid c) (tail : List Nat) :
    utf8DecodeFirst (utf8EncodeChar c ++ tail) = some (c, tail) := by
  obtain ⟨h1, h2⟩ := hv
  by_cases hc1 : c < 0x80
  · simp only [utf8EncodeChar, if_pos hc1, List.cons_append, List.nil_append,
      utf8DecodeFirst, if_pos hc1]
  · by_cases hc2 : c < 0x800
    · have e0 : ¬ (0xC0 + c / 64 < 0x80) := by omega
      have e1 : 0xC2 ≤ 0xC0 + c / 64 ∧ 0xC0 + c / 64 ≤ 0xDF := by omega
      have e2 : 0x80 ≤ 0x80 + c % 64 ∧ 0x80 + c % 64 ≤ 0xBF := by omega
      have e3 : (0xC0 + c / 64 - 0xC0) * 64 + (0x80 + c % 64 - 0x80) = c := by omega
      simp only [utf8EncodeChar, if_neg hc1, if_pos hc2, List.cons_append,
        List.nil_append, utf8DecodeFirst, if_neg e0, if_pos e1, if_pos e2, e3]
    · by_cases hc3 : c < 0x10000
      · have e0 : ¬ (0xE0 + c / 4096 < 0x80) := by omega
        have e1 : ¬ (0xC2 ≤ 0xE0 + c / 4096 ∧ 0xE0 + c / 4096 ≤ 0xDF) := by omega
        have e2 : 0xE0 ≤ 0xE0 + c / 4096 ∧ 0xE0 + c / 4096 ≤ 0xEF := by omega
        have e4 : 0x80 ≤ 0x80 + c % 64 ∧ 0x80 + c % 64 ≤ 0xBF := by omega
        have e5 : (0xE0 + c / 4096 - 0xE0) * 4096 + (0x80 + (c / 64) % 64 - 0x80) * 64
            + (0x80 + c % 64 - 0x80) = c := by omega
        have e3 : (if 0xE0 + c / 4096 = 0xE0 then
              0xA0 ≤ 0x80 + (c / 64) % 64 ∧ 0x80 + (c / 64) % 64 ≤ 0xBF
            else if 0xE0 + c / 4096 = 0xED then
              0x80 ≤ 0x80 + (c / 64) % 64 ∧ 0x80 + (c / 64) % 64 ≤ 0x9F
            else 0x80 ≤ 0x80 + (c / 64) % 64 ∧ 0x80 + (c / 64) % 64 ≤ 0xBF) := by
          by_cases hE0 : 0xE0 + c / 4096 = 0xE0
          · rw [if_pos hE0]; omega
          · rw [if_neg hE0]
            by_cases hED : 0xE0 + c / 4096 = 0xED
            · rw [if_pos hED]; omega
            · rw [if_neg hED]; omega
        simp only [utf8EncodeChar, if_neg hc1, if_neg hc2, if_pos hc3,
          List.cons_append, List.nil_append, utf8DecodeFirst, if_neg e0,
          if_neg e1, if_pos e2, e3, e4, e5, and_self, if_true]
      · have e0 : ¬ (0xF0 + c / 262144 < 0x80) := by omega
        have e1 : ¬ (0xC2 ≤ 0xF0 + c / 262144 ∧ 0xF0 + c / 262144 ≤ 0xDF) := by
          omega
        have e2 : ¬ (0xE0 ≤ 0xF0 + c / 262144 ∧ 0xF0 + c / 262144 ≤ 0xEF) := by
          omega
        have e2b : 0xF0 ≤ 0xF0 + c / 262144 ∧ 0xF0 + c / 262144 ≤ 0xF4 := by omega
        have e4 : 0x80 ≤ 0x80 + (c / 64) % 64 ∧ 0x80 + (c / 64) % 64 ≤ 0xBF := by
          omega
        have e4b : 0x80 ≤ 0x80 + c % 64 ∧ 0x80 + c % 64 ≤ 0xBF := by omega
        have e5 : (0xF0 + c / 262144 - 0xF0) * 262144
            + (0x80 + (c / 4096) % 64 - 0x80) * 4096
            + (0x80 + (c / 64) % 64 - 0x80) * 64 + (0x80 + c % 64 - 0x80) = c := by
          omega
        have e3 : (if 0xF0 + c / 262144 = 0xF0 then
              0x90 ≤ 0x80 + (c / 4096) % 64 ∧ 0x80 + (c / 4096) % 64 ≤ 0xBF
            else if 0xF0 + c / 262144 = 0xF4 then
              0x80 ≤ 0x80 + (c / 4096) % 64 ∧ 0x80 + (c / 4096) % 64 ≤ 0x8F
            else 0x80 ≤ 0x80 + (c / 4096) % 64 ∧ 0x80 + (c / 4096) % 64 ≤ 0xBF) := by
          by_cases hF0 : 0xF0 + c / 262144 = 0xF0
          · rw [if_pos hF0]; omega
          · rw [if_neg hF0]
            by_cases hF4 : 0xF0 + c / 262144 = 0xF4
            · rw [if_pos hF4]; omega
            · rw [if_neg hF4]; omega
        simp only [utf8EncodeChar, if_neg hc1, if_neg hc2, if_neg hc3,
          List.cons_append, List.nil_append, utf8DecodeFirst, if_neg e0,
          if_neg e1, if_neg e2, if_pos e2b, e3, e4, e4b, e5, and_self, if_true]

theorem utf8DecodeFirst_take_eq_none (c : Nat) (hv : ScalarValid c) (k : Nat)
    (h0 : 0 < k) (hk : k < (utf8EncodeChar c).length) :
    utf8DecodeFirst ((utf8EncodeChar c).take k) = none := by
  obtain ⟨h1, _⟩ := hv
  by_cases hc1 : c < 0x80
  · rw [utf8EncodeChar, if_pos hc1] at hk
    simp at hk
    omega
  · by_cases hc2 : c < 0x800
    · rw [utf8EncodeChar, if_neg hc1, if_pos hc2] at hk ⊢
      simp only [List.length_cons, List.length_nil] at hk
      have hk1 : k = 1 := by omega
      subst hk1
      have e0 : ¬ (0xC0 + c / 64 < 0x80) := by omega
      have e1 : 0xC2 ≤ 0xC0 + c / 64 ∧ 0xC0 + c / 64 ≤ 0xDF := by omega
      simp only [List.take, utf8DecodeFirst, if_neg e0, if_pos e1]
    · by_cases hc3 : c < 0x10000
      · rw [utf8EncodeChar, if_neg hc1, if_neg hc2, if_pos hc3] at hk ⊢
        simp only [List.length_cons, List.length_nil] at hk
        have e0 : ¬ (0xE0 + c / 4096 < 0x80) := by omega
        have e1 : ¬ (0xC2 ≤ 0xE0 + c / 4096 ∧ 0xE0 + c / 4096 ≤ 0xDF) := by omega
        have e2 : 0xE0 ≤ 0xE0 + c / 4096 ∧ 0xE0 + c / 4096 ≤ 0xEF := by omega
        have hk12 : k = 1 ∨ k = 2 := by omega
        rcases hk12 with rfl | rfl <;>
          simp only [List.take, utf8DecodeFirst, if_neg e0, if_neg e1, if_pos e2]
      · rw [utf8EncodeChar, if_neg hc1, if_neg hc2, if_neg hc3] at hk ⊢
        simp only [List.length_cons, List.length_nil] at hk
        have e0 : ¬ (0xF0 + c / 262144 < 0x80) := by omega
        have e1 : ¬ (0xC2 ≤ 0xF0 + c / 262144 ∧ 0xF0 + c / 262144 ≤ 0xDF) := by
          omega
        have e2 : ¬ (0xE0 ≤ 0xF0 + c / 262144 ∧ 0xF0 + c / 262144 ≤ 0xEF) := by
          omega
        have e2b : 0xF0 ≤ 0xF0 + c / 262144 ∧ 0xF0 + c / 262144 ≤ 0xF4 := by omega
        have hk123 : k = 1 ∨ k = 2 ∨ k = 3 := by omega
        rcases hk123 with rfl | rfl | rfl <;>
          simp only [List.take, utf8DecodeFirst, if_neg e0, if_neg e1, if_neg e2,
            if_pos e2b]

theorem utf8Run_append {σ : Type} (inner : DFAm σ Nat) (st : σ × List Nat)
    (xs ys : List Nat) :
    utf8Run inner st (xs ++ ys) = utf8Run inner (utf8Run inner st xs) ys :=
  List.foldl_append _ _ _ _

theorem utf8Run_mid {σ : Type} (inner : DFAm σ Nat) (s : σ) (c : Nat)
    (hv : ScalarValid c) :
    ∀ k, k < (utf8EncodeChar c).length →
    utf8Run inner (s, []) ((utf8EncodeChar c).take k) =
      (s, (utf8EncodeChar c).take k) := by
  intro k
  induction k with
  | zero => intro _; rfl
  | succ k ihk =>
    intro hk
    have hklt : k < (utf8EncodeChar c).length := by omega
    have hget : (utf8EncodeChar c).take (k + 1) =
        (utf8EncodeChar c).take k ++ [(utf8EncodeChar c).get ⟨k, hklt⟩] := by
      rw [List.take_succ]
      simp [List.getElem?_eq_getElem hklt, List.get_eq_getElem]
    rw [hget, utf8Run_append, ihk hklt]
    show utf8Accept inner (s, (utf8EncodeChar c).take k)
      ((utf8EncodeChar c).get ⟨k, hklt⟩) = _
    unfold utf8Accept
    dsimp only
    rw [← hget, utf8DecodeFirst_take_eq_none c hv (k + 1) (by omega) hk]

theorem utf8Run_char {σ : Type} (inner : DFAm σ Nat) (s : σ) (c : Nat)
    (hv : ScalarValid c) :
    utf8Run inner (s, []) (utf8EncodeChar c) = (inner.accept s c, []) := by
  obtain ⟨hlen1, _⟩ := utf8EncodeChar_length c
  obtain ⟨n, hn⟩ : ∃ n, (utf8EncodeChar c).length = n + 1 :=
    ⟨(utf8EncodeChar c).length - 1, by omega⟩
  have hn1 : n < (utf8EncodeChar c).length := by omega
  have hsplit : utf8EncodeChar c =
      (utf8EncodeChar c).take n ++ [(utf8EncodeChar c).get ⟨n, hn1⟩] := by
    conv_lhs => rw [← List.take_length (utf8EncodeChar c), hn, List.take_succ]
    simp [List.getElem?_eq_getElem hn1, List.get_eq_getElem]
  have hdec : utf8DecodeFirst (utf8EncodeChar c) = some (c, []) := by
    have := utf8DecodeFirst_encode c hv []
    rwa [List.append_nil] at this
  conv_lhs => rw [hsplit]
  rw [utf8Run_append, utf8Run_mid inner s c hv n hn1]
  show utf8Accept inner (s, (utf8EncodeChar c).take n)
    ((utf8EncodeChar c).get ⟨n, hn1⟩) = _
  unfold utf8Accept
  dsimp only
  rw [← hsplit, hdec]
  simp [utf8ValidList, utf8ValidListAux]

theorem utf8Run_encode {σ : Type} (inner : DFAm σ Nat) :
    ∀ (cs : List Nat) (s : σ), (∀ c ∈ cs, ScalarValid c) →
    utf8Run inner (s, []) (utf8Encode cs) = (innerRun inner s cs, []) := by
  intro cs
  induction cs with
  | nil => intro s _; rfl
  | cons c cs ih =>
    intro s hv
    have hc : ScalarValid c := hv c (List.mem_cons_self _ _)
    have hcs : ∀ x ∈ cs, ScalarValid x := fun x hx => hv x (List.mem_cons_of_mem _ hx)
    show utf8Run inner (s, []) (utf8EncodeChar c ++ utf8Encode cs) = _
    rw [utf8Run_append, utf8Run_char inner s c hc, ih _ hcs]
    rfl

theorem utf8Encode_prefix_decomp :
    ∀ (cs : List Nat) (bp : List Nat), bp <+: utf8Encode cs →
    (∀ c ∈ cs, ScalarValid c) →
    (∃ cs₁ cs₂, cs = cs₁ ++ cs₂ ∧ bp = utf8Encode cs₁) ∨
    (∃ cs₁ c cs₂ k, cs = cs₁ ++ c :: cs₂ ∧ 0 < k ∧
      k < (utf8EncodeChar c).length ∧
      bp = utf8Encode cs₁ ++ (utf8EncodeChar c).take k) := by
  intro cs
  induction cs with
  | nil =>
    intro bp hp _
    left
    refine ⟨[], [], rfl, ?_⟩
    simpa [utf8Encode] using List.prefix_nil.mp hp
  | cons c cs ih =>
    intro bp hp hv
    have henc : utf8Encode (c :: cs) = utf8EncodeChar c ++ utf8Encode cs := rfl
    rw [henc] at hp
    by_cases hlen : bp.length ≤ (utf8EncodeChar c).length
    · have hbp : bp <+: utf8EncodeChar c :=
        List.prefix_of_prefix_length_le hp (List.prefix_append _ _) hlen
      by_cases heq : bp.length = (utf8EncodeChar c).length
      · have : bp = utf8EncodeChar c := hbp.eq_of_length heq
        subst this
        left
        exact ⟨[c], cs, rfl, by simp [utf8Encode]⟩
      · by_cases hnil : bp.length = 0
        · left
          refine ⟨[], c :: cs, rfl, ?_⟩
          simp [List.length_eq_zero.mp hnil, utf8Encode]
        · right
          refine ⟨[], c, cs, bp.length, rfl, by omega, by omega, ?_⟩
          simp only [utf8Encode, List.flatMap_nil, List.nil_append]
          rw [← List.prefix_iff_eq_take.mp hbp]
    · have hxs : utf8EncodeChar c <+: bp := by
        refine List.prefix_of_prefix_length_le (List.prefix_append _ _) hp ?_
        omega
      obtain ⟨bp', rfl⟩ := hxs
      have hp' : bp' <+: utf8Encode cs :=
        (List.prefix_append_right_inj _).mp hp
      have hcs : ∀ x ∈ cs, ScalarValid x :=
        fun x hx => hv x (List.mem_cons_of_mem _ hx)
      rcases ih bp' hp' hcs with ⟨cs₁, cs₂, rfl, rfl⟩ | ⟨cs₁, c', cs₂, k, rfl, hk0, hkl, rfl⟩
      · left
        exact ⟨c :: cs₁, cs₂, rfl, by simp [utf8Encode]⟩
      · right
        exact ⟨c :: cs₁, c', cs₂, k, rfl, hk0, hkl, by simp [utf8Encode]⟩

/-- C6: feeding the UTF-8 byte encoding of a valid scalar string to the
UTF-8 adapter one byte at a time reproduces the inner DFA's trajectory: at
every scalar boundary the adapter state is `(inner state after those
scalars, empty buffer)` and `is_match` agrees with the inner DFA; strictly
inside a character the inner component is unchanged, the buffer is the
nonempty partial code unit, and `is_match` is false. -/
theorem utf8_adapter_roundtrip {σ : Type} (inner : DFAm σ Nat) (cs : List Nat)
    (hv : ∀ c ∈ cs, ScalarValid c) :
    (∀ cs₁ cs₂, cs = cs₁ ++ cs₂ →
      utf8Run inner (utf8Start inner) (utf8Encode cs₁) =
        (innerRun inner inner.start cs₁, []) ∧
      utf8IsMatch inner (utf8Run inner (utf8Start inner) (utf8Encode cs₁)) =
        inner.isMatch (innerRun inner inner.start cs₁)) ∧
    (∀ cs₁ c cs₂ k, cs = cs₁ ++ c :: cs₂ → 0 < k →
      k < (utf8EncodeChar c).length →
      utf8Run inner (utf8Start inner) (utf8Encode cs₁ ++ (utf8EncodeChar c).take k) =
        (innerRun inner inner.start cs₁, (utf8EncodeChar c).take k) ∧
      utf8IsMatch inner (utf8Run inner (utf8Start inner)
        (utf8Encode cs₁ ++ (utf8EncodeChar c).take k)) = false) := by
  constructor
  · intro cs₁ cs₂ hcs
    simp only [utf8Start]
    have hv₁ : ∀ x ∈ cs₁, ScalarValid x := fun x hx =>
      hv x (by rw [hcs]; exact List.mem_append.mpr (Or.inl hx))
    have hrun := utf8Run_encode inner cs₁ inner.start hv₁
    refine ⟨hrun, ?_⟩
    rw [hrun]
    simp [utf8IsMatch]
  · intro cs₁ c cs₂ k hcs hk0 hkl
    simp only [utf8Start]
    have hv₁ : ∀ x ∈ cs₁, ScalarValid x := fun x hx =>
      hv x (by rw [hcs]; exact List.mem_append.mpr (Or.inl hx))
    have hvc : ScalarValid c := hv c (by rw [hcs]; simp)
    have hrun : utf8Run inner (inner.start, [])
        (utf8Encode cs₁ ++ (utf8EncodeChar c).take k) =
        (innerRun inner inner.start cs₁, (utf8EncodeChar c).take k) := by
      rw [utf8Run_append]
      rw [utf8Run_encode inner cs₁ inner.start hv₁]
      exact utf8Run_mid inner _ c hvc k hkl
    refine ⟨hrun, ?_⟩
    rw [hrun]
    have hne : ((utf8EncodeChar c).take k).length ≠ 0 := by
      rw [List.length_take]
      obtain ⟨_, _⟩ := utf8EncodeChar_length c
      omega
    simp [utf8IsMatch, hne]
    intro hcase
    rcases hcase with rfl | hnil
    · exact absurd hk0 (by omega)
    · obtain ⟨hl1, _⟩ := utf8EncodeChar_length c
      rw [hnil] at hl1
      simp at hl1

/-- Witness for `utf8_adapter_roundtrip` on the string "cé" ([99, 233]). -/
theorem utf8_adapter_roundtrip_witness :
    (∀ c ∈ [99, 233], ScalarValid c) ∧
    ((∀ cs₁ cs₂, [99, 233] = cs₁ ++ cs₂ →
      utf8Run trivDFA (utf8Start trivDFA) (utf8Encode cs₁) =
        (innerRun trivDFA trivDFA.start cs₁, []) ∧
      utf8IsMatch trivDFA (utf8Run trivDFA (utf8Start trivDFA) (utf8Encode cs₁)) =
        trivDFA.isMatch (innerRun trivDFA trivDFA.start cs₁)) ∧
    (∀ cs₁ c cs₂ k, [99, 233] = cs₁ ++ c :: cs₂ → 0 < k →
      k < (utf8EncodeChar c).length →
      utf8Run trivDFA (utf8Start trivDFA)
        (utf8Encode cs₁ ++ (utf8EncodeChar c).take k) =
        (innerRun trivDFA trivDFA.start cs₁, (utf8EncodeChar c).take k) ∧
      utf8IsMatch trivDFA (utf8Run trivDFA (utf8Start trivDFA)
        (utf8Encode cs₁ ++ (utf8EncodeChar c).take k)) = false)) :=
  ⟨by decide, utf8_adapter_roundtrip trivDFA [99, 233] (by decide)⟩

/-- C7 (amended): along any byte stream that is a prefix of the UTF-8
encoding of a valid scalar string, the adapter's buffer always holds at
most 3 bytes (a strict prefix of one code unit).  For arbitrary invalid
bytes the buffer is unbounded (see the counterexample). -/
theorem utf8_buffer_bound {σ : Type} (inner : DFAm σ Nat) (cs : List Nat)
    (hv : ∀ c ∈ cs, ScalarValid c) (bp : List Nat)
    (hpre : bp <+: utf8Encode cs) :
    (utf8Run inner (utf8Start inner) bp).2.length ≤ 3 := by
  rcases utf8Encode_prefix_decomp cs bp hpre hv with
    ⟨cs₁, cs₂, hcs, rfl⟩ | ⟨cs₁, c, cs₂, k, hcs, hk0, hkl, rfl⟩
  · have hv₁ : ∀ x ∈ cs₁, ScalarValid x := fun x hx =>
      hv x (by rw [hcs]; exact List.mem_append.mpr (Or.inl hx))
    rw [show utf8Start inner = (inner.start, ([] : List Nat)) from rfl,
      utf8Run_encode inner cs₁ inner.start hv₁]
    simp
  · have hv₁ : ∀ x ∈ cs₁, ScalarValid x := fun x hx =>
      hv x (by rw [hcs]; exact List.mem_append.mpr (Or.inl hx))
    have hvc : ScalarValid c := hv c (by rw [hcs]; simp)
    rw [utf8Run_append]
    rw [show utf8Start inner = (inner.start, ([] : List Nat)) from rfl,
      utf8Run_encode inner cs₁ inner.start hv₁]
    rw [utf8Run_mid inner _ c hvc k hkl]
    obtain ⟨_, h4⟩ := utf8EncodeChar_length c
    simp only [List.length_take]
    omega

/-- C7 counterexample: five `0xFF` bytes (never valid UTF-8) grow the
buffer to 5 bytes — the 4-byte bound fails on arbitrary input bytes. -/
theorem utf8_buffer_overflow_counterexample :
    utf8Run trivDFA (utf8Start trivDFA) [255, 255, 255, 255, 255] =
      ((), [255, 255, 255, 255, 255]) ∧
    ¬ ((utf8Run trivDFA (utf8Start trivDFA)
      [255, 255, 255, 255, 255]).2.length ≤ 4) := by
  constructor <;> decide

/-- Witness for `utf8_buffer_bound` at the one-character string "é". -/
theorem utf8_buffer_bound_witness :
    (∀ c ∈ [233], ScalarValid c) ∧ [0xC3] <+: utf8Encode [233] ∧
    (utf8Run trivDFA (utf8Start trivDFA) [0xC3]).2.length ≤ 3 :=
  ⟨by decide, by decide,
    utf8_buffer_bound trivDFA [233] (by decide) [0xC3] (by decide)⟩

theorem lex_self_append {l t : List Nat} {b : Nat} :
    List.Lex (· < ·) l (l ++ b :: t) := by
  have := List.Lex.append_left (· < ·)
    (List.Lex.nil : List.Lex (· < ·) [] (b :: t)) l
  simpa using this

theorem lex_head_lt {l t u : List Nat} {a b : Nat} (h : a < b) :
    List.Lex (· < ·) (l ++ a :: t) (l ++ b :: u) :=
  List.Lex.append_left _ (List.Lex.rel h) l

theorem sorted_label_lt (fst : Fst) (hs : FstSorted fst) (a : Nat) {i j : Nat}
    (hij : i < j) (hj : j < (fst.node a).trans.length) :
    ((fst.node a).trans.getD i ⟨0, 0, 0⟩).inp <
      ((fst.node a).trans.getD j ⟨0, 0, 0⟩).inp := by
  have hi : i < (fst.node a).trans.length := lt_trans hij hj
  rw [List.getD_eq_getElem _ _ hi, List.getD_eq_getElem _ _ hj]
  have := List.pairwise_iff_get.mp (hs a) ⟨i, hi⟩ ⟨j, hj⟩ hij
  simpa [List.get_eq_getElem] using this

theorem dropLast_prefix_self (l : List Nat) : l.dropLast <+: l := by
  rw [List.dropLast_eq_take]
  exact List.take_prefix _ _

theorem frameChain_retrans {σ : Type} (fst : Fst) (aut : DFAm σ Nat)
    (inp : List Nat) (f : StreamFrame σ) (rest : List (StreamFrame σ)) (k : Nat)
    (hc : FrameChain fst aut inp (f :: rest)) :
    FrameChain fst aut inp (⟨f.node, k, f.out, f.aut_state⟩ :: rest) := by
  cases rest with
  | nil => exact hc
  | cons g rest => exact hc

theorem chain_top_state {σ : Type} (fst : Fst) (aut : DFAm σ Nat) :
    ∀ (stack : List (StreamFrame σ)) (inp : List Nat) (f : StreamFrame σ),
    FrameChain fst aut inp (f :: stack) →
    f.aut_state = dfaRun aut aut.start inp := by
  intro stack
  induction stack with
  | nil =>
    intro inp f hc
    obtain ⟨_, hinp, hst⟩ := hc
    subst hinp
    exact hst
  | cons g rest ih =>
    intro inp f hc
    obtain ⟨_, hchain, _, _, _, hdec, hacc⟩ := hc
    have hg := ih inp.dropLast g hchain
    rw [hacc, hg, ← hdec]
    simp [dfaRun, List.foldl_append]

theorem dom_aux {σ : Type} (fst : Fst) (aut : DFAm σ Nat) (hs : FstSorted fst) :
    ∀ (rest : List (StreamFrame σ)) (inp : List Nat) (f : StreamFrame σ)
      (key : List Nat),
    FrameChain fst aut inp (f :: rest) → inp <+: key →
    DomChain fst key inp.dropLast rest := by
  intro rest
  induction rest with
  | nil => intro inp f key _ _; trivial
  | cons g rest ih =>
    intro inp f key hc hpre
    obtain ⟨hne, hchain, hg1, hglen, haddr, hdec, hacc⟩ := hc
    refine ⟨?_, ?_⟩
    · intro j hj hjlen
      have hlt : ((fst.node g.node).trans.getD (g.trans - 1) ⟨0, 0, 0⟩).inp <
          ((fst.node g.node).trans.getD j ⟨0, 0, 0⟩).inp :=
        sorted_label_lt fst hs g.node (by omega) hjlen
      obtain ⟨ext, hext⟩ := hpre
      have hkey : key = inp.dropLast ++
          ((fst.node g.node).trans.getD (g.trans - 1) ⟨0, 0, 0⟩).inp :: ext := by
        rw [← hext]
        conv_lhs => rw [← hdec]
        simp
      rw [hkey]
      exact lex_head_lt hlt
    · exact ih inp.dropLast g key hchain
        ((dropLast_prefix_self inp).trans hpre)

theorem dom_of_chain {σ : Type} (fst : Fst) (aut : DFAm σ Nat)
    (hs : FstSorted fst) (inp : List Nat) (f : StreamFrame σ)
    (stack : List (StreamFrame σ))
    (hc : FrameChain fst aut inp (f :: stack)) :
    DomChain fst inp inp (f :: stack) := by
  refine ⟨?_, ?_⟩
  · intro j _ _
    exact lex_self_append
  · exact dom_aux fst aut hs stack inp f inp hc (List.prefix_refl _)

theorem stream_body_preserves {σ : Type} (fst : Fst) (aut : DFAm σ Nat)
    (hs : FstSorted fst) (hr : FstRootFree fst) (st : StreamSt σ)
    (hinv : StreamInv fst aut st) :
    (∀ s2, streamBody fst aut st = .cont s2 → StreamInv fst aut s2 ∧
      ∀ key, StreamDom fst key st → StreamDom fst key s2) ∧
    (∀ e s2, streamBody fst aut st = .emit e s2 → StreamInv fst aut s2 ∧
      e.1 = s2.inp ∧ StreamDom fst e.1 s2 ∧
      (∀ key, StreamDom fst key st → List.Lex (· < ·) key e.1) ∧
      e.2.2 = dfaRun aut aut.start e.1 ∧ aut.isMatch e.2.2 = true) := by
  obtain ⟨inp, stack⟩ := st
  cases stack with
  | nil =>
    constructor
    · intro s2 hb; exact absurd hb (by simp [streamBody])
    · intro e s2 hb; exact absurd hb (by simp [streamBody])
  | cons frame rest =>
    have hchain : FrameChain fst aut inp (frame :: rest) := by
      rcases hinv with h | h
      · exact absurd h (by simp)
      · exact h
    by_cases hprune : (fst.node frame.node).trans.length ≤ frame.trans ∨
        aut.canMatch frame.aut_state = false
    · by_cases hrt : frame.node ≠ fst.rootAddr
      · have hb : streamBody fst aut ⟨inp, frame :: rest⟩ =
            .cont ⟨inp.dropLast, rest⟩ := by
          unfold streamBody
          dsimp only
          rw [if_pos hprune, if_pos hrt]
        cases rest with
        | nil => obtain ⟨h1, _, _⟩ := hchain; exact absurd h1 hrt
        | cons g rest' =>
          obtain ⟨_, hchain', _⟩ := hchain
          constructor
          · intro s2 hcont
            rw [hb] at hcont
            injection hcont with h
            subst h
            refine ⟨Or.inr hchain', ?_⟩
            intro key hdom
            exact hdom.2
          · intro e s2 hemit
            rw [hb] at hemit
            exact absurd hemit (by simp)
      · push_neg at hrt
        have hb : streamBody fst aut ⟨inp, frame :: rest⟩ =
            .cont ⟨inp, rest⟩ := by
          unfold streamBody
          dsimp only
          rw [if_pos hprune, if_neg (by simp [hrt])]
        cases rest with
        | cons g rest' => exact absurd hrt hchain.1
        | nil =>
          constructor
          · intro s2 hcont
            rw [hb] at hcont
            injection hcont with h
            subst h
            exact ⟨Or.inl rfl, fun key _ => trivial⟩
          · intro e s2 hemit
            rw [hb] at hemit
            exact absurd hemit (by simp)
    · have hOr := hprune
      push_neg at hprune
      obtain ⟨hlen, hcm⟩ := hprune
      have hlt : frame.trans < (fst.node frame.node).trans.length := hlen
      have htmem : (fst.node frame.node).trans.getD frame.trans ⟨0, 0, 0⟩ ∈
          (fst.node frame.node).trans := by
        rw [List.getD_eq_getElem _ _ hlt]
        exact List.getElem_mem _
      have htroot : ((fst.node frame.node).trans.getD frame.trans ⟨0, 0, 0⟩).addr ≠
          fst.rootAddr := hr frame.node _ htmem
      have hchain2 : FrameChain fst aut
          (inp ++ [((fst.node frame.node).trans.getD frame.trans ⟨0, 0, 0⟩).inp])
          (⟨((fst.node frame.node).trans.getD frame.trans ⟨0, 0, 0⟩).addr, 0,
              frame.out + ((fst.node frame.node).trans.getD frame.trans ⟨0, 0, 0⟩).out,
              aut.accept frame.aut_state
                ((fst.node frame.node).trans.getD frame.trans ⟨0, 0, 0⟩).inp⟩ ::
            ⟨frame.node, frame.trans + 1, frame.out, frame.aut_state⟩ :: rest) := by
        refine ⟨htroot, ?_, by dsimp only; omega, by dsimp only; simpa using hlt,
          by simp, ?_, by simp⟩
        · rw [List.dropLast_concat]
          exact frameChain_retrans fst aut inp frame rest (frame.trans + 1) hchain
        · rw [List.dropLast_concat]
          simp
      have hstate : aut.accept frame.aut_state
            ((fst.node frame.node).trans.getD frame.trans ⟨0, 0, 0⟩).inp =
          dfaRun aut aut.start
            (inp ++ [((fst.node frame.node).trans.getD frame.trans ⟨0, 0, 0⟩).inp]) := by
        rw [chain_top_state fst aut rest inp frame hchain]
        simp [dfaRun, List.foldl_append]
      have hdom2 : ∀ key, StreamDom fst key ⟨inp, frame :: rest⟩ →
          StreamDom fst key
            ⟨inp ++ [((fst.node frame.node).trans.getD frame.trans ⟨0, 0, 0⟩).inp],
              ⟨((fst.node frame.node).trans.getD frame.trans ⟨0, 0, 0⟩).addr, 0,
                frame.out + ((fst.node frame.node).trans.getD frame.trans ⟨0, 0, 0⟩).out,
                aut.accept frame.aut_state
                  ((fst.node frame.node).trans.getD frame.trans ⟨0, 0, 0⟩).inp⟩ ::
              ⟨frame.node, frame.trans + 1, frame.out, frame.aut_state⟩ :: rest⟩ := by
        intro key hdom
        have hbase : List.Lex (· < ·) key
            (inp ++ [((fst.node frame.node).trans.getD frame.trans ⟨0, 0, 0⟩).inp]) :=
          hdom.1 frame.trans (le_refl _) hlt
        refine ⟨?_, ?_, ?_⟩
        · intro j _ _
          exact List.Lex.append_right _ _ hbase
        · rw [List.dropLast_concat]
          intro j hj hjlen
          simp only at hj
          exact hdom.1 j (by omega) hjlen
        · rw [List.dropLast_concat]
          exact hdom.2
      by_cases hfin : ((fst.node
            ((fst.node frame.node).trans.getD frame.trans ⟨0, 0, 0⟩).addr).is_final &&
          aut.isMatch (aut.accept frame.aut_state
            ((fst.node frame.node).trans.getD frame.trans ⟨0, 0, 0⟩).inp)) = true
      · have hb : streamBody fst aut ⟨inp, frame :: rest⟩ =
            .emit (inp ++ [((fst.node frame.node).trans.getD frame.trans ⟨0, 0, 0⟩).inp],
              frame.out + ((fst.node frame.node).trans.getD frame.trans ⟨0, 0, 0⟩).out +
                (fst.node
                  ((fst.node frame.node).trans.getD frame.trans ⟨0, 0, 0⟩).addr).final_output,
              aut.accept frame.aut_state
                ((fst.node frame.node).trans.getD frame.trans ⟨0, 0, 0⟩).inp)
            ⟨inp ++ [((fst.node frame.node).trans.getD frame.trans ⟨0, 0, 0⟩).inp],
              ⟨((fst.node frame.node).trans.getD frame.trans ⟨0, 0, 0⟩).addr, 0,
                frame.out + ((fst.node frame.node).trans.getD frame.trans ⟨0, 0, 0⟩).out,
                aut.accept frame.aut_state
                  ((fst.node frame.node).trans.getD frame.trans ⟨0, 0, 0⟩).inp⟩ ::
              ⟨frame.node, frame.trans + 1, frame.out, frame.aut_state⟩ :: rest⟩ := by
          unfold streamBody
          dsimp only
          rw [if_neg (by exact hOr), if_pos hfin]
        constructor
        · intro s2 hcont
          rw [hb] at hcont
          exact absurd hcont (by simp)
        · intro e s2 hemit
          rw [hb] at hemit
          injection hemit with h1 h2
          subst h1
          subst h2
          refine ⟨Or.inr hchain2, rfl, dom_of_chain fst aut hs _ _ _ hchain2,
            ?_, hstate, by simp only [Bool.and_eq_true] at hfin; exact hfin.2⟩
          intro key hdom
          exact hdom.1 frame.trans (le_refl _) hlt
      · have hb : streamBody fst aut ⟨inp, frame :: rest⟩ =
            .cont ⟨inp ++ [((fst.node frame.node).trans.getD frame.trans ⟨0, 0, 0⟩).inp],
              ⟨((fst.node frame.node).trans.getD frame.trans ⟨0, 0, 0⟩).addr, 0,
                frame.out + ((fst.node frame.node).trans.getD frame.trans ⟨0, 0, 0⟩).out,
                aut.accept frame.aut_state
                  ((fst.node frame.node).trans.getD frame.trans ⟨0, 0, 0⟩).inp⟩ ::
              ⟨frame.node, frame.trans + 1, frame.out, frame.aut_state⟩ :: rest⟩ := by
          unfold streamBody
          dsimp only
          rw [if_neg (by exact hOr), if_neg hfin]
        constructor
        · intro s2 hcont
          rw [hb] at hcont
          injection hcont with h
          subst h
          exact ⟨Or.inr hchain2, hdom2⟩
        · intro e s2 hemit
          rw [hb] at hemit
          exact absurd hemit (by simp)

theorem stream_emits_sorted {σ : Type} (fst : Fst) (aut : DFAm σ Nat)
    (hs : FstSorted fst) (hr : FstRootFree fst) :
    ∀ (fuel : Nat) (st : StreamSt σ), StreamInv fst aut st →
    List.Chain' (List.Lex (· < ·))
      ((streamEmits fst aut fuel st).map (fun e => e.1)) ∧
    (∀ key, StreamDom fst key st →
      List.Chain (List.Lex (· < ·)) key
        ((streamEmits fst aut fuel st).map (fun e => e.1))) := by
  intro fuel
  induction fuel with
  | zero => intro st _; exact ⟨trivial, fun key _ => List.Chain.nil⟩
  | succ fuel ih =>
    intro st hinv
    obtain ⟨hcont, hemit⟩ := stream_body_preserves fst aut hs hr st hinv
    cases hb : streamBody fst aut st with
    | done =>
      simp only [streamEmits, hb]
      exact ⟨trivial, fun key _ => List.Chain.nil⟩
    | cont s2 =>
      simp only [streamEmits, hb]
      obtain ⟨hinv2, hdom2⟩ := hcont s2 hb
      obtain ⟨h1, h2⟩ := ih s2 hinv2
      exact ⟨h1, fun key hk => h2 key (hdom2 key hk)⟩
    | emit e s2 =>
      simp only [streamEmits, hb, List.map_cons]
      obtain ⟨hinv2, hkey, hdome, hgt, _, _⟩ := hemit e s2 hb
      obtain ⟨h1, h2⟩ := ih s2 hinv2
      have hch : List.Chain (List.Lex (· < ·)) e.1
          ((streamEmits fst aut fuel s2).map (fun x => x.1)) := h2 e.1 hdome
      exact ⟨hch, fun key hk => List.Chain.cons (hgt key hk) hch⟩

theorem stream_emits_match {σ : Type} (fst : Fst) (aut : DFAm σ Nat)
    (hs : FstSorted fst) (hr : FstRootFree fst) :
    ∀ (fuel : Nat) (st : StreamSt σ), StreamInv fst aut st →
    ∀ e ∈ streamEmits fst aut fuel st,
      e.2.2 = dfaRun aut aut.start e.1 ∧ aut.isMatch e.2.2 = true := by
  intro fuel
  induction fuel with
  | zero => intro st _ e he; exact absurd he (by simp [streamEmits])
  | succ fuel ih =>
    intro st hinv
    obtain ⟨hcont, hemit⟩ := stream_body_preserves fst aut hs hr st hinv
    cases hb : streamBody fst aut st with
    | done =>
      simp only [streamEmits, hb]
      intro e he
      exact absurd he (by simp)
    | cont s2 =>
      simp only [streamEmits, hb]
      exact ih s2 (hcont s2 hb).1
    | emit e2 s2 =>
      simp only [streamEmits, hb]
      intro e he
      rcases List.mem_cons.mp he with rfl | hmem
      · obtain ⟨_, _, _, _, hst, hm⟩ := hemit e s2 hb
        exact ⟨hst, hm⟩
      · exact ih s2 (hemit e2 s2 hb).1 e hmem

/-- C3: assuming the FST collaborator's invariants (strictly increasing
transition labels per node; no transition targets the root, as the fst
crate guarantees for its minimized FSTs), the keys emitted by the joint
stream form a strictly increasing sequence under byte-lexicographic
order, for every automaton and every number of loop iterations. -/
theorem stream_lex_increasing {σ : Type} (fst : Fst) (aut : DFAm σ Nat)
    (fuel : Nat) (hs : FstSorted fst) (hr : FstRootFree fst) :
    List.Chain' (List.Lex (· < ·))
      ((streamEmits fst aut fuel (streamStart fst aut)).map (fun e => e.1)) := by
  have hinv : StreamInv fst aut (streamStart fst aut) := Or.inr ⟨rfl, rfl, rfl⟩
  exact (stream_emits_sorted fst aut hs hr fuel _ hinv).1

/-- Witness for `stream_lex_increasing` on a concrete FST. -/
theorem stream_lex_increasing_witness :
    FstSorted exFst ∧ FstRootFree exFst ∧
    List.Chain' (List.Lex (· < ·))
      ((streamEmits exFst trivDFA 10 (streamStart exFst trivDFA)).map
        (fun e => e.1)) :=
  have hs : FstSorted exFst := by
    intro a
    by_cases h : a = 2
    · subst h; simp only [exFst]; decide
    · simp [exFst, h]
  have hr : FstRootFree exFst := by
    intro a t ht
    by_cases h : a = 2
    · subst h
      simp only [exFst, if_pos rfl] at ht ⊢
      rcases List.mem_cons.mp ht with rfl | ht2
      · decide
      · rcases List.mem_cons.mp ht2 with rfl | ht3
        · decide
        · exact absurd ht3 (by simp)
    · simp [exFst, h] at ht
  ⟨hs, hr, stream_lex_increasing exFst trivDFA 10 hs hr⟩

/-- C4: for every FST satisfying the collaborator invariants and every
automaton obeying the DFA contract (`is_match ⇒ can_match`; once
`can_match` is false it stays false on every descendant), if the automaton
state obtained by folding `accept` over a prefix `p` cannot match, then no
key emitted by the joint stream extends `p` (in particular none strictly
extends it). -/
theorem stream_prune_sound {σ : Type} (fst : Fst) (aut : DFAm σ Nat)
    (fuel : Nat) (p : List Nat)
    (hs : FstSorted fst) (hr : FstRootFree fst)
    (hmono1 : ∀ s, aut.isMatch s = true → aut.canMatch s = true)
    (hmono2 : ∀ s b, aut.canMatch s = false →
      aut.canMatch (aut.accept s b) = false)
    (hp : aut.canMatch (dfaRun aut aut.start p) = false) :
    ∀ e ∈ streamEmits fst aut fuel (streamStart fst aut),
      ¬ (p <+: e.1 ∧ p ≠ e.1) := by
  have hinv : StreamInv fst aut (streamStart fst aut) := Or.inr ⟨rfl, rfl, rfl⟩
  rintro e he ⟨hpre, _⟩
  obtain ⟨hst, hm⟩ := stream_emits_match fst aut hs hr fuel _ hinv e he
  obtain ⟨ext, hext⟩ := hpre
  have hfold : ∀ (s : σ) (l : List Nat), aut.canMatch s = false →
      aut.canMatch (dfaRun aut s l) = false := by
    intro s l
    induction l generalizing s with
    | nil => intro h; exact h
    | cons b l ihl => intro h; exact ihl _ (hmono2 s b h)
  have hdead : aut.canMatch (dfaRun aut aut.start e.1) = false := by
    rw [← hext]
    rw [show dfaRun aut aut.start (p ++ ext) =
      dfaRun aut (dfaRun aut aut.start p) ext from by
        simp [dfaRun, List.foldl_append]]
    exact hfold _ _ hp
  have hcm := hmono1 _ (hst ▸ hm)
  rw [hdead] at hcm
  exact absurd hcm (by simp)

/-- Witness for `stream_prune_sound` on a concrete FST and pruning DFA. -/
theorem stream_prune_sound_witness :
    FstSorted exFst ∧ FstRootFree exFst ∧
    exPruneDFA.canMatch (dfaRun exPruneDFA exPruneDFA.start [98]) = false ∧
    (∀ e ∈ streamEmits exFst exPruneDFA 10 (streamStart exFst exPruneDFA),
      ¬ ([98] <+: e.1 ∧ [98] ≠ e.1)) :=
  have hs : FstSorted exFst := by
    intro a
    by_cases h : a = 2
    · subst h; simp only [exFst]; decide
    · simp [exFst, h]
  have hr : FstRootFree exFst := by
    intro a t ht
    by_cases h : a = 2
    · subst h
      simp only [exFst, if_pos rfl] at ht ⊢
      rcases List.mem_cons.mp ht with rfl | ht2
      · decide
      · rcases List.mem_cons.mp ht2 with rfl | ht3
        · decide
        · exact absurd ht3 (by simp)
    · simp [exFst, h] at ht
  ⟨hs, hr, by decide,
    stream_prune_sound exFst exPruneDFA 10 [98] hs hr
      (by intro s h; exact h)
      (by intro s b h; simp [exPruneDFA] at h ⊢; simp [h])
      (by decide)⟩

theorem popMin_eq_none_iff {σ : Type} (h : List (AgendaItem σ)) :
    popMin h = none ↔ h = [] := by
  cases h with
  | nil => simp [popMin]
  | cons a t =>
    simp only [popMin]
    cases ht : popMin t with
    | none => simp
    | some p =>
      obtain ⟨b, r⟩ := p
      by_cases hc : itemKey a ≤ itemKey b <;> simp [hc]

theorem popMin_perm {σ : Type} :
    ∀ {h : List (AgendaItem σ)} {it : AgendaItem σ} {rest : List (AgendaItem σ)},
    popMin h = some (it, rest) → h.Perm (it :: rest) := by
  intro h
  induction h with
  | nil => intro it rest hp; simp [popMin] at hp
  | cons a t ih =>
    intro it rest hp
    simp only [popMin] at hp
    cases ht : popMin t with
    | none =>
      have htn : t = [] := (popMin_eq_none_iff t).mp ht
      rw [ht] at hp
      simp only [Option.some.injEq, Prod.mk.injEq] at hp
      obtain ⟨rfl, rfl⟩ := hp
      rw [htn]
    | some p =>
      obtain ⟨b, r⟩ := p
      rw [ht] at hp
      by_cases hc : itemKey a ≤ itemKey b
      · simp only [hc, if_true, Option.some.injEq, Prod.mk.injEq] at hp
        obtain ⟨rfl, rfl⟩ := hp
        exact List.Perm.refl _
      · simp only [hc, if_false, Option.some.injEq, Prod.mk.injEq] at hp
        obtain ⟨rfl, rfl⟩ := hp
        exact ((ih ht).cons a).trans (List.Perm.swap b a r)

theorem popMin_key_le {σ : Type} :
    ∀ {h : List (AgendaItem σ)} {it : AgendaItem σ} {rest : List (AgendaItem σ)},
    popMin h = some (it, rest) → ∀ x ∈ rest, itemKey it ≤ itemKey x := by
  intro h
  induction h with
  | nil => intro it rest hp; simp [popMin] at hp
  | cons a t ih =>
    intro it rest hp x hx
    simp only [popMin] at hp
    cases ht : popMin t with
    | none =>
      have htn : t = [] := (popMin_eq_none_iff t).mp ht
      rw [ht] at hp
      simp only [Option.some.injEq, Prod.mk.injEq] at hp
      obtain ⟨rfl, rfl⟩ := hp
      simp [htn] at hx
    | some p =>
      obtain ⟨b, r⟩ := p
      rw [ht] at hp
      by_cases hc : itemKey a ≤ itemKey b
      · simp only [hc, if_true, Option.some.injEq, Prod.mk.injEq] at hp
        obtain ⟨rfl, rfl⟩ := hp
        have hmem : x ∈ b :: r := (popMin_perm ht).mem_iff.mp hx
        rcases List.mem_cons.mp hmem with rfl | hxr
        · exact hc
        · exact le_trans hc (ih ht x hxr)
      · simp only [hc, if_false, Option.some.injEq, Prod.mk.injEq] at hp
        obtain ⟨rfl, rfl⟩ := hp
        rcases List.mem_cons.mp hx with rfl | hxr
        · exact le_of_lt (lt_of_not_le hc)
        · exact ih ht x hxr

theorem stepInner_done {σ : Type} [DecidableEq σ] {th : W} {beam : Nat}
    {extra : σ → W → List (AgendaItem σ)} {heap : List (AgendaItem σ)}
    {seen : List σ} {result r : List (σ × W)} (fuel : Nat)
    (h : stepBody th beam extra heap seen result = .done r) :
    stepInner th beam extra fuel heap seen result = some r := by
  rw [stepInner, h]

theorem stepInner_cont {σ : Type} [DecidableEq σ] {th : W} {beam : Nat}
    {extra : σ → W → List (AgendaItem σ)} {heap heap' : List (AgendaItem σ)}
    {seen seen' : List σ} {result result' : List (σ × W)} (fuel : Nat)
    (h : stepBody th beam extra heap seen result = .cont heap' seen' result') :
    stepInner th beam extra (fuel + 1) heap seen result =
      stepInner th beam extra fuel heap' seen' result' := by
  rw [stepInner, h]

theorem stepInner_cont_zero {σ : Type} [DecidableEq σ] {th : W} {beam : Nat}
    {extra : σ → W → List (AgendaItem σ)} {heap heap' : List (AgendaItem σ)}
    {seen seen' : List σ} {result result' : List (σ × W)}
    (h : stepBody th beam extra heap seen result = .cont heap' seen' result') :
    stepInner th beam extra 0 heap seen result = none := by
  rw [stepInner, h]

/-- C10: the empty frontier is an absorbing dead state of the beam-search
adapter: `accept` on the empty frontier (plain and epsilon-expanding
variants, any fuel) returns the empty frontier, and `is_match`, `can_match`
and `will_always_match` are all false on it. -/
theorem empty_frontier_dead {σ ι : Type} [DecidableEq σ] (nfa : WNFA σ ι)
    (enfa : EpsNFA σ ι) (th th' : W) (beam beam' fuel fuel' : Nat) (inp inp' : ι) :
    beamAccept nfa th beam fuel [] inp = some [] ∧
    epsAccept enfa th' beam' fuel' [] inp' = some [] ∧
    frontierIsMatch nfa [] = false ∧
    frontierCanMatch nfa [] = false ∧
    frontierWillAlwaysMatch nfa [] = false := by
  refine ⟨?_, ?_, rfl, rfl, rfl⟩ <;>
    simp [beamAccept, epsAccept, initHeap, stepInner, stepBody, popMin]

theorem stepBody_done_sound {σ : Type} [DecidableEq σ] {th : W} {beam : Nat}
    {extra : σ → W → List (AgendaItem σ)} {R : σ → W → Prop}
    {heap : List (AgendaItem σ)} {seen : List σ} {result r : List (σ × W)}
    (hheap : HeapOk R heap) (hseen : SeenOk seen result)
    (hnodup : (result.map Prod.fst).Nodup)
    (hbody : stepBody th beam extra heap seen result = .done r) :
    (∀ e ∈ r, e ∈ result ∨ Good R th e) ∧ (r.map Prod.fst).Nodup ∧ result <+: r := by
  unfold stepBody at hbody
  cases hpop : popMin heap with
  | none =>
    rw [hpop] at hbody
    injection hbody with h
    subst h
    exact ⟨fun e he => Or.inl he, hnodup, List.prefix_refl _⟩
  | some p =>
    obtain ⟨item, heap'⟩ := p
    rw [hpop] at hbody
    dsimp only at hbody
    have hperm := popMin_perm hpop
    have hitem : ∀ e ∈ item.edges, R e.1 (item.base + e.2) :=
      hheap item (hperm.mem_iff.mpr (List.mem_cons_self _ _))
    cases hedges : item.edges with
    | nil => rw [hedges] at hbody; exact absurd hbody (by simp)
    | cons sc rest =>
      obtain ⟨s, c⟩ := sc
      rw [hedges] at hbody
      dsimp only at hbody
      by_cases hth : th < item.base + c ∨ item.base + c = ⊤
      · rw [if_pos hth] at hbody; exact absurd hbody (by simp)
      · rw [if_neg hth] at hbody
        by_cases hs : s ∈ seen
        · rw [if_pos hs] at hbody; exact absurd hbody (by simp)
        · rw [if_neg hs] at hbody
          by_cases hb : beam ≤ (result ++ [(s, item.base + c)]).length
          · rw [if_pos hb] at hbody
            injection hbody with h
            subst h
            push_neg at hth
            have hsnot : s ∉ result.map Prod.fst :=
              fun hmem => hs ((hseen s).mpr hmem)
            refine ⟨?_, ?_, List.prefix_append _ _⟩
            · intro e he
              rcases List.mem_append.mp he with h1 | h2
              · exact Or.inl h1
              · have he2 : e = (s, item.base + c) := by simpa using h2
                subst he2
                exact Or.inr ⟨hitem (s, c)
                  (by rw [hedges]; exact List.mem_cons_self _ _), hth.1, hth.2⟩
            · rw [List.map_append]
              refine List.Nodup.append hnodup (by simp) ?_
              intro a ha hb2
              have : a = s := by simpa using hb2
              subst this
              exact hsnot ha
          · rw [if_neg hb] at hbody; exact absurd hbody (by simp)

theorem stepBody_cont_sound {σ : Type} [DecidableEq σ] {th : W} {beam : Nat}
    {extra : σ → W → List (AgendaItem σ)} {R : σ → W → Prop}
    (hextra : ∀ s w, R s w → HeapOk R (extra s w))
    {heap heap2 : List (AgendaItem σ)} {seen seen2 : List σ}
    {result result2 : List (σ × W)}
    (hheap : HeapOk R heap) (hseen : SeenOk seen result)
    (hnodup : (result.map Prod.fst).Nodup)
    (hbody : stepBody th beam extra heap seen result = .cont heap2 seen2 result2) :
    HeapOk R heap2 ∧ SeenOk seen2 result2 ∧ (result2.map Prod.fst).Nodup ∧
      result <+: result2 ∧ (∀ e ∈ result2, e ∈ result ∨ Good R th e) := by
  unfold stepBody at hbody
  cases hpop : popMin heap with
  | none => rw [hpop] at hbody; exact absurd hbody (by simp)
  | some p =>
    obtain ⟨item, heap'⟩ := p
    rw [hpop] at hbody
    dsimp only at hbody
    have hperm := popMin_perm hpop
    have hheap' : HeapOk R heap' := fun it hit =>
      hheap it (hperm.mem_iff.mpr (List.mem_cons_of_mem _ hit))
    have hitem : ∀ e ∈ item.edges, R e.1 (item.base + e.2) :=
      hheap item (hperm.mem_iff.mpr (List.mem_cons_self _ _))
    have hrest : ∀ (hd : σ × W) (rest : List (σ × W)), item.edges = hd :: rest →
        HeapOk R [(⟨item.base, rest⟩ : AgendaItem σ)] := by
      intro hd rest hr it hit e he
      have : it = (⟨item.base, rest⟩ : AgendaItem σ) := by simpa using hit
      subst this
      exact hitem e (by rw [hr]; exact List.mem_cons_of_mem _ he)
    cases hedges : item.edges with
    | nil =>
      rw [hedges] at hbody
      injection hbody with h1 h2 h3
      subst h1; subst h2; subst h3
      exact ⟨hheap', hseen, hnodup, List.prefix_refl _, fun e he => Or.inl he⟩
    | cons sc rest =>
      obtain ⟨s, c⟩ := sc
      rw [hedges] at hbody
      dsimp only at hbody
      by_cases hth : th < item.base + c ∨ item.base + c = ⊤
      · rw [if_pos hth] at hbody
        injection hbody with h1 h2 h3
        subst h1; subst h2; subst h3
        exact ⟨hheap', hseen, hnodup, List.prefix_refl _, fun e he => Or.inl he⟩
      · rw [if_neg hth] at hbody
        by_cases hs : s ∈ seen
        · rw [if_pos hs] at hbody
          injection hbody with h1 h2 h3
          subst h1; subst h2; subst h3
          refine ⟨?_, hseen, hnodup, List.prefix_refl _, fun e he => Or.inl he⟩
          intro it hit
          rcases List.mem_append.mp hit with h1 | h2
          · exact hheap' it h1
          · have : it = (⟨item.base, rest⟩ : AgendaItem σ) := by simpa using h2
            subst this
            exact hrest _ rest hedges _ (by simp)
        · rw [if_neg hs] at hbody
          by_cases hb : beam ≤ (result ++ [(s, item.base + c)]).length
          · rw [if_pos hb] at hbody; exact absurd hbody (by simp)
          · rw [if_neg hb] at hbody
            injection hbody with h1 h2 h3
            subst h1; subst h2; subst h3
            push_neg at hth
            have hgood : Good R th (s, item.base + c) :=
              ⟨hitem (s, c) (by rw [hedges]; exact List.mem_cons_self _ _),
                hth.1, hth.2⟩
            have hsnot : s ∉ result.map Prod.fst :=
              fun hmem => hs ((hseen s).mpr hmem)
            refine ⟨?_, ?_, ?_, List.prefix_append _ _, ?_⟩
            · intro it hit
              rcases List.mem_append.mp hit with h12 | h2
              · rcases List.mem_append.mp h12 with h1 | hextra2
                · exact hheap' it h1
                · exact hextra s (item.base + c) hgood.1 it hextra2
              · have : it = (⟨item.base, rest⟩ : AgendaItem σ) := by simpa using h2
                subst this
                exact hrest _ rest hedges _ (by simp)
            · intro x
              constructor
              · intro hx
                rcases List.mem_cons.mp hx with rfl | hx2
                · simp
                · simp only [List.map_append]
                  exact List.mem_append.mpr (Or.inl ((hseen x).mp hx2))
              · intro hx
                simp only [List.map_append] at hx
                rcases List.mem_append.mp hx with hx1 | hx2
                · exact List.mem_cons_of_mem _ ((hseen x).mpr hx1)
                · have : x = s := by simpa using hx2
                  subst this
                  exact List.mem_cons_self _ _
            · rw [List.map_append]
              refine List.Nodup.append hnodup (by simp) ?_
              intro a ha hb2
              have : a = s := by simpa using hb2
              subst this
              exact hsnot ha
            · intro e he
              rcases List.mem_append.mp he with h1 | h2
              · exact Or.inl h1
              · have : e = (s, item.base + c) := by simpa using h2
                subst this
                exact Or.inr hgood

theorem stepInner_sound {σ : Type} [DecidableEq σ] {th : W} {beam : Nat}
    {extra : σ → W → List (AgendaItem σ)} {R : σ → W → Prop}
    (hextra : ∀ s w, R s w → HeapOk R (extra s w)) :
    ∀ (fuel : Nat) (heap : List (AgendaItem σ)) (seen : List σ)
      (result out : List (σ × W)),
    HeapOk R heap → SeenOk seen result → (result.map Prod.fst).Nodup →
    stepInner th beam extra fuel heap seen result = some out →
    (∀ e ∈ out, e ∈ result ∨ Good R th e) ∧ (out.map Prod.fst).Nodup ∧
      result <+: out := by
  intro fuel
  induction fuel with
  | zero =>
    intro heap seen result out hheap hseen hnodup hrun
    rw [stepInner] at hrun
    cases hbody : stepBody th beam extra heap seen result with
    | done r =>
      rw [hbody] at hrun
      injection hrun with h
      subst h
      exact stepBody_done_sound hheap hseen hnodup hbody
    | cont h2 s2 r2 => rw [hbody] at hrun; exact absurd hrun (by simp)
  | succ fuel ih =>
    intro heap seen result out hheap hseen hnodup hrun
    cases hbody : stepBody th beam extra heap seen result with
    | done r =>
      rw [stepInner_done (fuel + 1) hbody] at hrun
      injection hrun with h
      subst h
      exact stepBody_done_sound hheap hseen hnodup hbody
    | cont h2 s2 r2 =>
      rw [stepInner_cont fuel hbody] at hrun
      obtain ⟨hh2, hs2, hn2, hp2, hg2⟩ :=
        stepBody_cont_sound hextra hheap hseen hnodup hbody
      obtain ⟨hout, hnodup2, hpre⟩ := ih h2 s2 r2 out hh2 hs2 hn2 hrun
      refine ⟨?_, hnodup2, hp2.trans hpre⟩
      intro e he
      rcases hout e he with h1 | h1
      · exact hg2 e h1
      · exact Or.inr h1

theorem stepBody_done_shape {σ : Type} [DecidableEq σ] {th : W} {beam : Nat}
    {extra : σ → W → List (AgendaItem σ)} {heap : List (AgendaItem σ)}
    {seen : List σ} {result r : List (σ × W)}
    (hbody : stepBody th beam extra heap seen result = .done r) :
    r = result ∨ (r.length = result.length + 1 ∧ beam ≤ r.length) := by
  unfold stepBody at hbody
  cases hpop : popMin heap with
  | none =>
    rw [hpop] at hbody
    injection hbody with h
    exact Or.inl h.symm
  | some p =>
    obtain ⟨item, heap'⟩ := p
    rw [hpop] at hbody
    dsimp only at hbody
    cases hedges : item.edges with
    | nil => rw [hedges] at hbody; exact absurd hbody (by simp)
    | cons sc rest =>
      obtain ⟨s, c⟩ := sc
      rw [hedges] at hbody
      dsimp only at hbody
      by_cases hth : th < item.base + c ∨ item.base + c = ⊤
      · rw [if_pos hth] at hbody; exact absurd hbody (by simp)
      · rw [if_neg hth] at hbody
        by_cases hs : s ∈ seen
        · rw [if_pos hs] at hbody; exact absurd hbody (by simp)
        · rw [if_neg hs] at hbody
          by_cases hb : beam ≤ (result ++ [(s, item.base + c)]).length
          · rw [if_pos hb] at hbody
            injection hbody with h
            subst h
            exact Or.inr ⟨by simp, hb⟩
          · rw [if_neg hb] at hbody; exact absurd hbody (by simp)

theorem stepBody_cont_shape {σ : Type} [DecidableEq σ] {th : W} {beam : Nat}
    {extra : σ → W → List (AgendaItem σ)} {heap heap2 : List (AgendaItem σ)}
    {seen seen2 : List σ} {result result2 : List (σ × W)}
    (hbody : stepBody th beam extra heap seen result = .cont heap2 seen2 result2) :
    result2 = result ∨
      (result2.length = result.length + 1 ∧ result2.length < beam) := by
  unfold stepBody at hbody
  cases hpop : popMin heap with
  | none => rw [hpop] at hbody; exact absurd hbody (by simp)
  | some p =>
    obtain ⟨item, heap'⟩ := p
    rw [hpop] at hbody
    dsimp only at hbody
    cases hedges : item.edges with
    | nil =>
      rw [hedges] at hbody
      injection hbody with h1 h2 h3
      exact Or.inl h3.symm
    | cons sc rest =>
      obtain ⟨s, c⟩ := sc
      rw [hedges] at hbody
      dsimp only at hbody
      by_cases hth : th < item.base + c ∨ item.base + c = ⊤
      · rw [if_pos hth] at hbody
        injection hbody with h1 h2 h3
        exact Or.inl h3.symm
      · rw [if_neg hth] at hbody
        by_cases hs : s ∈ seen
        · rw [if_pos hs] at hbody
          injection hbody with h1 h2 h3
          exact Or.inl h3.symm
        · rw [if_neg hs] at hbody
          by_cases hb : beam ≤ (result ++ [(s, item.base + c)]).length
          · rw [if_pos hb] at hbody; exact absurd hbody (by simp)
          · rw [if_neg hb] at hbody
            injection hbody with h1 h2 h3
            subst h3
            refine Or.inr ⟨by simp, ?_⟩
            simpa using Nat.lt_of_not_le hb

theorem stepInner_length {σ : Type} [DecidableEq σ] {th : W} {beam : Nat}
    {extra : σ → W → List (AgendaItem σ)} :
    ∀ (fuel : Nat) (heap : List (AgendaItem σ)) (seen : List σ)
      (result out : List (σ × W)),
    stepInner th beam extra fuel heap seen result = some out →
    out.length ≤ max beam (result.length + 1) := by
  intro fuel
  induction fuel with
  | zero =>
    intro heap seen result out hrun
    rw [stepInner] at hrun
    cases hbody : stepBody th beam extra heap seen result with
    | done r =>
      rw [hbody] at hrun
      injection hrun with h
      subst h
      rcases stepBody_done_shape hbody with rfl | ⟨h1, _⟩
      · exact le_max_of_le_right (Nat.le_succ _)
      · rw [h1]; exact le_max_right _ _
    | cont h2 s2 r2 => rw [hbody] at hrun; exact absurd hrun (by simp)
  | succ fuel ih =>
    intro heap seen result out hrun
    cases hbody : stepBody th beam extra heap seen result with
    | done r =>
      rw [stepInner_done (fuel + 1) hbody] at hrun
      injection hrun with h
      subst h
      rcases stepBody_done_shape hbody with rfl | ⟨h1, _⟩
      · exact le_max_of_le_right (Nat.le_succ _)
      · rw [h1]; exact le_max_right _ _
    | cont h2 s2 r2 =>
      rw [stepInner_cont fuel hbody] at hrun
      have := ih h2 s2 r2 out hrun
      rcases stepBody_cont_shape hbody with rfl | ⟨h1, h2len⟩
      · exact this
      · refine le_trans this ?_
        have hb2 : max beam (r2.length + 1) = beam := max_eq_left h2len
        rw [hb2]
        exact le_max_left _ _

/-- C2 (amended): every frontier returned by `accept` (plain and
epsilon-expanding variants) contains only entries `(s, w)` with `w ≤
threshold`, `w` finite, and `s` reachable from some pre-state frontier
entry by one `nfa.accept` edge on the input symbol (plus a chain of
`follow_epsilon` edges in the epsilon variant) at accumulated cost `w`;
no NFA state appears twice; and the frontier has at most
`max beam_size 1` entries (at most `beam_size` whenever `beam_size ≥ 1`;
with `beam_size = 0` one entry can still be admitted before the beam
check fires). -/
theorem accept_frontier_invariants {σ ι : Type} [DecidableEq σ]
    (nfa : WNFA σ ι) (enfa : EpsNFA σ ι) (th th2 : W) (beam beam2 fuel fuel2 : Nat)
    (frontier frontier2 : List (σ × W)) (inp inp2 : ι) (out out2 : List (σ × W))
    (hrun : beamAccept nfa th beam fuel frontier inp = some out)
    (hrun2 : epsAccept enfa th2 beam2 fuel2 frontier2 inp2 = some out2) :
    ((∀ e ∈ out, StepReach nfa frontier inp e.1 e.2 ∧ e.2 ≤ th ∧ e.2 ≠ ⊤) ∧
      (out.map Prod.fst).Nodup ∧ out.length ≤ max beam 1) ∧
    ((∀ e ∈ out2, EpsCloseReach enfa frontier2 inp2 e.1 e.2 ∧ e.2 ≤ th2 ∧ e.2 ≠ ⊤) ∧
      (out2.map Prod.fst).Nodup ∧ out2.length ≤ max beam2 1) := by
  constructor
  · have hextra1 : ∀ (s : σ) (w : W), StepReach nfa frontier inp s w →
        HeapOk (StepReach nfa frontier inp) ([] : List (AgendaItem σ)) := by
      intro s w _ it hit
      exact absurd hit (List.not_mem_nil _)
    have hheap1 : HeapOk (StepReach nfa frontier inp) (initHeap nfa frontier inp) := by
      intro it hit e he
      simp only [initHeap, List.mem_map] at hit
      obtain ⟨p, hp, rfl⟩ := hit
      exact StepReach.one p hp e.1 e.2 he
    obtain ⟨h1, h2, _⟩ := stepInner_sound hextra1 fuel _ _ _ out hheap1
      (by intro x; simp) (by simp) hrun
    refine ⟨?_, h2, ?_⟩
    · intro e he
      exact (h1 e he).resolve_left (by simp)
    · simpa using stepInner_length fuel _ _ _ out hrun
  · have hextra2 : ∀ (s : σ) (w : W), EpsCloseReach enfa frontier2 inp2 s w →
        HeapOk (EpsCloseReach enfa frontier2 inp2) (epsExtra enfa s w) := by
      intro s w hR it hit e he
      have : it = (⟨w, enfa.followEpsilon s⟩ : AgendaItem σ) := by
        simpa [epsExtra] using hit
      subst this
      exact EpsCloseReach.eps s w hR e.1 e.2 he
    have hheap2 : HeapOk (EpsCloseReach enfa frontier2 inp2)
        (initHeap enfa.toWNFA frontier2 inp2) := by
      intro it hit e he
      simp only [initHeap, List.mem_map] at hit
      obtain ⟨p, hp, rfl⟩ := hit
      exact EpsCloseReach.one p hp e.1 e.2 he
    obtain ⟨h1, h2, _⟩ := stepInner_sound hextra2 fuel2 _ _ _ out2 hheap2
      (by intro x; simp) (by simp) hrun2
    refine ⟨?_, h2, ?_⟩
    · intro e he
      exact (h1 e he).resolve_left (by simp)
    · simpa using stepInner_length fuel2 _ _ _ out2 hrun2

/-- C2 counterexample: with `beam_size = 0` the step still admits one entry
(the beam check `result.len() >= self.beam_size` fires only after the
push), so the returned frontier has one entry, exceeding `beam_size`. -/
theorem beam_bound_counterexample :
    beamAccept exSeenNFA ⊤ 0 20 [(0, ((0:ℚ):W))] () = some [(2, ((0:ℚ):W))] ∧
    ¬ ([((2:Nat), ((0:ℚ):W))].length ≤ 0) := by
  constructor
  · norm_num [beamAccept, stepInner, stepBody, popMin, itemKey, initHeap, exSeenNFA]
  · simp

/-- Witness for `accept_frontier_invariants` on concrete runs. -/
theorem accept_frontier_invariants_witness :
    beamAccept exSeenNFA ⊤ 5 20 [(0, ((0:ℚ):W))] () = some [(2, ((0:ℚ):W))] ∧
    epsAccept exEpsNFA ⊤ 5 20 [(0, ((0:ℚ):W))] () = some [] ∧
    (((∀ e ∈ [((2:Nat), ((0:ℚ):W))],
        StepReach exSeenNFA [(0, ((0:ℚ):W))] () e.1 e.2 ∧ e.2 ≤ ⊤ ∧ e.2 ≠ ⊤) ∧
      ([((2:Nat), ((0:ℚ):W))].map Prod.fst).Nodup ∧
      [((2:Nat), ((0:ℚ):W))].length ≤ max 5 1) ∧
    ((∀ e ∈ ([] : List (Nat × W)),
        EpsCloseReach exEpsNFA [(0, ((0:ℚ):W))] () e.1 e.2 ∧ e.2 ≤ ⊤ ∧ e.2 ≠ ⊤) ∧
      (([] : List (Nat × W)).map Prod.fst).Nodup ∧
      ([] : List (Nat × W)).length ≤ max 5 1)) :=
  ⟨by norm_num [beamAccept, stepInner, stepBody, popMin, itemKey, initHeap, exSeenNFA],
   by norm_num [epsAccept, stepInner, stepBody, popMin, itemKey, initHeap, epsExtra, exEpsNFA],
   accept_frontier_invariants exSeenNFA exEpsNFA ⊤ ⊤ 5 5 20 20
     [(0, ((0:ℚ):W))] [(0, ((0:ℚ):W))] () () [(2, ((0:ℚ):W))] []
     (by norm_num [beamAccept, stepInner, stepBody, popMin, itemKey, initHeap, exSeenNFA])
     (by norm_num [epsAccept, stepInner, stepBody, popMin, itemKey, initHeap, epsExtra, exEpsNFA])⟩

/-- C9 (amended): a `some` result of the epsilon-expanding adapter's
`start()` begins with the wrapped NFA's start state at cost 0; every other
entry is reachable from the start state by a nonempty chain of
`follow_epsilon` edges with accumulated cost within threshold and finite;
no state repeats; and the frontier has at most `max beam_size 2` entries
(the pre-seeded start entry plus one admission can exceed `beam_size`
when `beam_size ≤ 1`). -/
theorem eps_start_characterization {σ ι : Type} [DecidableEq σ] (nfa : EpsNFA σ ι)
    (th : W) (beam fuel : Nat) (out : List (σ × W))
    (hrun : epsStart nfa th beam fuel = some out) :
    [(nfa.start, (0:W))] <+: out ∧
    (∀ e ∈ out, e = (nfa.start, (0:W)) ∨
      (EpsStartReach nfa e.1 e.2 ∧ e.2 ≤ th ∧ e.2 ≠ ⊤)) ∧
    (out.map Prod.fst).Nodup ∧ out.length ≤ max beam 2 := by
  have hextra : ∀ (s : σ) (w : W), EpsStartReach nfa s w →
      HeapOk (EpsStartReach nfa) (epsExtra nfa s w) := by
    intro s w hR it hit e he
    have : it = (⟨w, nfa.followEpsilon s⟩ : AgendaItem σ) := by
      simpa [epsExtra] using hit
    subst this
    exact EpsStartReach.eps s w hR e.1 e.2 he
  have hheap : HeapOk (EpsStartReach nfa) (epsExtra nfa nfa.start 0) := by
    intro it hit e he
    have : it = (⟨0, nfa.followEpsilon nfa.start⟩ : AgendaItem σ) := by
      simpa [epsExtra] using hit
    subst this
    exact EpsStartReach.one e.1 e.2 he
  obtain ⟨h1, h2, h3⟩ := stepInner_sound hextra fuel _ _ _ out hheap
    (by intro x; simp) (by simp) hrun
  refine ⟨h3, ?_, h2, ?_⟩
  · intro e he
    rcases h1 e he with h | h
    · exact Or.inl (by simpa using h)
    · exact Or.inr h
  · simpa using stepInner_length fuel _ _ _ out hrun

/-- C9 counterexample: with `beam_size = 1`, the pre-seeded start entry plus
the first admission already make a start frontier of 2 entries, exceeding
`beam_size`. -/
theorem eps_start_beam_counterexample :
    epsStart exEpsNFA ⊤ 1 20 = some [(0, (0:W)), (1, ((0:ℚ):W))] ∧
    ¬ ([((0:Nat), (0:W)), (1, ((0:ℚ):W))].length ≤ 1) := by
  constructor
  · norm_num [epsStart, stepInner, stepBody, popMin, itemKey, epsExtra, exEpsNFA]
  · simp

/-- Witness for `eps_start_characterization`, including the specification's
scenario 6: for the epsilon NFA `A —ε(0)→ B —ε(0)→ C` with `C` final, the
start frontier is `[A@0, B@0, C@0]` and `is_match` holds on it. -/
theorem eps_start_characterization_witness :
    epsStart exEpsNFA ⊤ 10 20 =
      some [(0, (0:W)), (1, ((0:ℚ):W)), (2, ((0:ℚ):W))] ∧
    frontierIsMatch exEpsNFA.toWNFA
      [(0, (0:W)), (1, ((0:ℚ):W)), (2, ((0:ℚ):W))] = true ∧
    ([((0:Nat), (0:W))] <+: [(0, (0:W)), (1, ((0:ℚ):W)), (2, ((0:ℚ):W))] ∧
      (∀ e ∈ [((0:Nat), (0:W)), (1, ((0:ℚ):W)), (2, ((0:ℚ):W))],
        e = ((0:Nat), (0:W)) ∨
          (EpsStartReach exEpsNFA e.1 e.2 ∧ e.2 ≤ ⊤ ∧ e.2 ≠ ⊤)) ∧
      ([((0:Nat), (0:W)), (1, ((0:ℚ):W)), (2, ((0:ℚ):W))].map Prod.fst).Nodup ∧
      [((0:Nat), (0:W)), (1, ((0:ℚ):W)), (2, ((0:ℚ):W))].length ≤ max 10 2) :=
  ⟨by norm_num [epsStart, stepInner, stepBody, popMin, itemKey, epsExtra, exEpsNFA],
   by norm_num [frontierIsMatch, exEpsNFA],
   eps_start_characterization exEpsNFA ⊤ 10 20
     [(0, (0:W)), (1, ((0:ℚ):W)), (2, ((0:ℚ):W))]
     (by norm_num [epsStart, stepInner, stepBody, popMin, itemKey, epsExtra, exEpsNFA])⟩

/-- C5 (amended): when the popped agenda item's candidate edge passes the
threshold/finiteness filter but targets an NFA state already in the
seen-set, the edge is dropped and the loop continues — but the item IS
re-pushed onto the heap with its lookahead advanced, so its remaining edges
stay available in this accept step (re-pushing is skipped only by the
threshold/finiteness filter or when the iterator is exhausted). -/
theorem seen_edge_repush {σ : Type} [DecidableEq σ] (th : W) (beam : Nat)
    (extra : σ → W → List (AgendaItem σ)) (fuel : Nat)
    (heap heap' : List (AgendaItem σ)) (seen : List σ) (result : List (σ × W))
    (item : AgendaItem σ) (s : σ) (c : W) (rest : List (σ × W))
    (hpop : popMin heap = some (item, heap'))
    (hedges : item.edges = (s, c) :: rest)
    (hth : ¬(th < item.base + c ∨ item.base + c = ⊤))
    (hseen : s ∈ seen) :
    stepBody th beam extra heap seen result =
      .cont (heap' ++ [⟨item.base, rest⟩]) seen result ∧
    stepInner th beam extra (fuel + 1) heap seen result =
      stepInner th beam extra fuel (heap' ++ [⟨item.base, rest⟩]) seen result := by
  obtain ⟨base, edges⟩ := item
  simp only at hedges hth
  subst hedges
  have hb : stepBody th beam extra heap seen result =
      .cont (heap' ++ [⟨base, rest⟩]) seen result := by
    unfold stepBody
    rw [hpop]
    dsimp only
    rw [if_neg hth, if_pos hseen]
  exact ⟨hb, stepInner_cont fuel hb⟩

/-- C5 counterexample: on a concrete two-item agenda the source keeps the
item whose first edge hit the seen-set, so its second edge (to state `3`)
is still admitted; under the claimed drop-on-seen behaviour state `3`
would be absent. -/
theorem seen_edge_repush_counterexample :
    beamAccept exSeenNFA ⊤ 10 20 [(0, ((0:ℚ):W)), (1, ((0:ℚ):W))] () =
      some [(2, ((0:ℚ):W)), (3, ((1:ℚ):W))] ∧
    beamAcceptSpecDropSeen exSeenNFA ⊤ 10 20 [(0, ((0:ℚ):W)), (1, ((0:ℚ):W))] () =
      some [(2, ((0:ℚ):W))] := by
  constructor <;>
    norm_num [beamAccept, beamAcceptSpecDropSeen, stepInner, stepInnerSpecDropSeen,
      stepBody, stepBodySpecDropSeen, popMin, itemKey, initHeap, exSeenNFA]

/-- Witness for `seen_edge_repush` at a concrete agenda state. -/
theorem seen_edge_repush_witness :
    (2 : Nat) ∈ [2] ∧
    stepInner ⊤ 10 (fun _ _ => ([] : List (AgendaItem Nat))) 6
        [⟨((0:ℚ):W), []⟩, ⟨((0:ℚ):W), [(2, ((1:ℚ):W)), (3, ((1:ℚ):W))]⟩]
        [2] [(2, ((0:ℚ):W))] =
      stepInner ⊤ 10 (fun _ _ => ([] : List (AgendaItem Nat))) 5
        ([⟨((0:ℚ):W), []⟩] ++ [⟨((0:ℚ):W), [(3, ((1:ℚ):W))]⟩])
        [2] [(2, ((0:ℚ):W))] :=
  ⟨by simp,
    (seen_edge_repush ⊤ 10 (fun _ _ => []) 5
      [⟨((0:ℚ):W), []⟩, ⟨((0:ℚ):W), [(2, ((1:ℚ):W)), (3, ((1:ℚ):W))]⟩]
      [⟨((0:ℚ):W), []⟩] [2] [(2, ((0:ℚ):W))]
      ⟨((0:ℚ):W), [(2, ((1:ℚ):W)), (3, ((1:ℚ):W))]⟩ 2 ((1:ℚ):W)
      [(3, ((1:ℚ):W))]
      (by norm_num [popMin, itemKey]) rfl (by norm_num) (by simp)).2⟩

theorem foldr_min_le (l : List W) (x : W) (hx : x ∈ l) : l.foldr min ⊤ ≤ x := by
  induction l with
  | nil => cases hx
  | cons a t ih =>
    rcases List.mem_cons.mp hx with rfl | hxt
    · exact min_le_left _ _
    · exact le_trans (min_le_right _ _) (ih hxt)

theorem le_foldr_min (l : List W) (b : W) (h : ∀ x ∈ l, b ≤ x) :
    b ≤ l.foldr min ⊤ := by
  induction l with
  | nil => exact le_top
  | cons a t ih =>
    exact le_min (h a (List.mem_cons_self _ _))
      (ih fun x hx => h x (List.mem_cons_of_mem _ hx))

theorem foldr_min_perm {l₁ l₂ : List W} (hp : l₁.Perm l₂) :
    l₁.foldr min ⊤ = l₂.foldr min ⊤ := by
  induction hp with
  | nil => rfl
  | cons x _ ih => simp only [List.foldr_cons, ih]
  | swap x y l => simp only [List.foldr_cons]; exact min_left_comm _ _ _
  | trans _ _ ih1 ih2 => rw [ih1, ih2]

theorem itemMinTo_le {σ : Type} [DecidableEq σ] (it : AgendaItem σ) (s : σ)
    (e : σ × W) (he : e ∈ it.edges) (h1 : e.1 = s) :
    itemMinTo it s ≤ it.base + e.2 := by
  apply foldr_min_le
  exact List.mem_filterMap.mpr ⟨e, he, by rw [if_pos h1]⟩

theorem le_itemMinTo {σ : Type} [DecidableEq σ] (it : AgendaItem σ) (s : σ)
    (b : W) (h : ∀ e ∈ it.edges, e.1 = s → b ≤ it.base + e.2) :
    b ≤ itemMinTo it s := by
  apply le_foldr_min
  intro x hx
  obtain ⟨e, he, hfe⟩ := List.mem_filterMap.mp hx
  by_cases h1 : e.1 = s
  · rw [if_pos h1] at hfe
    injection hfe with hfe
    exact hfe ▸ h e he h1
  · rw [if_neg h1] at hfe
    cases hfe

theorem itemMinTo_top {σ : Type} [DecidableEq σ] (l : List (σ × W)) (s : σ) :
    itemMinTo ⟨⊤, l⟩ s = ⊤ :=
  le_antisymm le_top (le_itemMinTo _ _ _ fun e _ _ => by
    rw [show ((⟨⊤, l⟩ : AgendaItem σ).base : W) = ⊤ from rfl, top_add])

theorem itemMinTo_cons_ne {σ : Type} [DecidableEq σ] (base : W) (s0 : σ)
    (c : W) (rest : List (σ × W)) (s : σ) (h : ¬ s0 = s) :
    itemMinTo ⟨base, (s0, c) :: rest⟩ s = itemMinTo ⟨base, rest⟩ s := by
  simp only [itemMinTo, List.filterMap_cons]
  rw [if_neg h]

theorem minWTo_cons {σ : Type} [DecidableEq σ] (it : AgendaItem σ)
    (h : List (AgendaItem σ)) (s : σ) :
    minWTo (it :: h) s = min (itemMinTo it s) (minWTo h s) := rfl

theorem minWTo_append {σ : Type} [DecidableEq σ] (h1 h2 : List (AgendaItem σ))
    (s : σ) : minWTo (h1 ++ h2) s = min (minWTo h1 s) (minWTo h2 s) := by
  induction h1 with
  | nil => exact (min_eq_right le_top).symm
  | cons a t ih =>
    rw [List.cons_append, minWTo_cons, ih, minWTo_cons, min_assoc]

theorem minWTo_perm {σ : Type} [DecidableEq σ] {h1 h2 : List (AgendaItem σ)}
    (hp : h1.Perm h2) (s : σ) : minWTo h1 s = minWTo h2 s :=
  foldr_min_perm (hp.map _)

theorem minWTo_le {σ : Type} [DecidableEq σ] (heap : List (AgendaItem σ))
    (it : AgendaItem σ) (hit : it ∈ heap) (s : σ) :
    minWTo heap s ≤ itemMinTo it s :=
  foldr_min_le _ _ (List.mem_map_of_mem _ hit)

theorem le_minWTo {σ : Type} [DecidableEq σ] (heap : List (AgendaItem σ))
    (s : σ) (b : W) (h : ∀ it ∈ heap, b ≤ itemMinTo it s) :
    b ≤ minWTo heap s := by
  apply le_foldr_min
  intro x hx
  obtain ⟨it, hit, rfl⟩ := List.mem_map.mp hx
  exact h it hit

theorem heapMeasure_cons {σ : Type} (it : AgendaItem σ)
    (h : List (AgendaItem σ)) :
    heapMeasure (it :: h) = (it.edges.length + 1) + heapMeasure h := by
  simp [heapMeasure]

theorem heapMeasure_append {σ : Type} (h1 h2 : List (AgendaItem σ)) :
    heapMeasure (h1 ++ h2) = heapMeasure h1 + heapMeasure h2 := by
  simp [heapMeasure]

theorem heapMeasure_perm {σ : Type} {h1 h2 : List (AgendaItem σ)}
    (hp : h1.Perm h2) : heapMeasure h1 = heapMeasure h2 :=
  List.Perm.sum_eq (hp.map _)

theorem itemKey_le_of_sorted {σ : Type} (it : AgendaItem σ)
    (hs : it.edges.Pairwise (fun e1 e2 => e1.2 ≤ e2.2)) :
    ∀ e ∈ it.edges, itemKey it ≤ it.base + e.2 := by
  intro e he
  obtain ⟨base, edges⟩ := it
  cases edges with
  | nil => cases he
  | cons hd tl =>
    obtain ⟨s0, c0⟩ := hd
    have hkey : itemKey ⟨base, (s0, c0) :: tl⟩ = base + c0 := rfl
    rw [hkey]
    rcases List.mem_cons.mp he with rfl | htl
    · exact le_refl _
    · exact add_le_add_left ((List.pairwise_cons.mp hs).1 e htl) _

theorem dijkstra_step {σ : Type} [DecidableEq σ] {beam : Nat} {m : σ → W}
    {heap : List (AgendaItem σ)} {seen : List σ} {result : List (σ × W)}
    (hinv : DijkInv m heap seen result)
    (hbeam : result.length + heapMeasure heap < beam) :
    (stepBody ⊤ beam (fun _ _ => []) heap seen result = .done result ∧ heap = []) ∨
    (∃ heap2 seen2 result2,
      stepBody ⊤ beam (fun _ _ => []) heap seen result = .cont heap2 seen2 result2 ∧
      DijkInv m heap2 seen2 result2 ∧
      heapMeasure heap2 < heapMeasure heap ∧
      result2.length + heapMeasure heap2 ≤ result.length + heapMeasure heap) := by
  obtain ⟨hsort, hres, hseen, hnodup, hmin⟩ := hinv
  cases hpop : popMin heap with
  | none =>
    refine Or.inl ⟨?_, (popMin_eq_none_iff heap).mp hpop⟩
    unfold stepBody
    rw [hpop]
  | some p =>
    obtain ⟨item, heap'⟩ := p
    have hperm := popMin_perm hpop
    have hmeq : heapMeasure heap = (item.edges.length + 1) + heapMeasure heap' := by
      rw [heapMeasure_perm hperm, heapMeasure_cons]
    have hminheap : ∀ s, minWTo heap s = min (itemMinTo item s) (minWTo heap' s) :=
      fun s => by rw [minWTo_perm hperm, minWTo_cons]
    have hsort' : EdgesSorted heap' := fun it hit =>
      hsort it (hperm.mem_iff.mpr (List.mem_cons_of_mem _ hit))
    have hsortitem := hsort item (hperm.mem_iff.mpr (List.mem_cons_self _ _))
    cases hedges : item.edges with
    | nil =>
      have hbody : stepBody ⊤ beam (fun _ _ => []) heap seen result =
          .cont heap' seen result := by
        unfold stepBody
        rw [hpop]
        dsimp only
        rw [hedges]
      refine Or.inr ⟨heap', seen, result, hbody,
        ⟨hsort', hres, hseen, hnodup, ?_⟩, by omega, by omega⟩
      intro s hs
      have htop : itemMinTo item s = ⊤ := by
        simp only [itemMinTo, hedges, List.filterMap_nil, List.foldr_nil]
      have h1 := hminheap s
      rw [hmin s hs, htop, min_eq_right le_top] at h1
      exact h1.symm
    | cons sc rest =>
      obtain ⟨s, c⟩ := sc
      have hm2 : item.edges.length = rest.length + 1 := by rw [hedges]; rfl
      have hsortcons : ((s, c) :: rest).Pairwise
          (fun e1 e2 => (e1.2 : W) ≤ e2.2) := hedges ▸ hsortitem
      have hheadle : ∀ e ∈ rest, c ≤ e.2 := (List.pairwise_cons.mp hsortcons).1
      have hrestsort : rest.Pairwise (fun e1 e2 => (e1.2 : W) ≤ e2.2) :=
        (List.pairwise_cons.mp hsortcons).2
      have hkeyle : ∀ e ∈ item.edges, item.base + c ≤ item.base + e.2 := by
        intro e he
        rw [hedges] at he
        rcases List.mem_cons.mp he with rfl | htl
        · exact le_refl _
        · exact add_le_add_left (hheadle e htl) _
      by_cases hkey : item.base + c = ⊤
      · have hbody : stepBody ⊤ beam (fun _ _ => []) heap seen result =
            .cont heap' seen result := by
          unfold stepBody
          rw [hpop]
          dsimp only
          rw [hedges]
          dsimp only
          rw [if_pos (Or.inr hkey)]
        refine Or.inr ⟨heap', seen, result, hbody,
          ⟨hsort', hres, hseen, hnodup, ?_⟩, by omega, by omega⟩
        intro s' hs'
        have htop : itemMinTo item s' = ⊤ := by
          apply le_antisymm le_top
          apply le_itemMinTo
          intro e he _
          have h2 := hkeyle e he
          rw [hkey] at h2
          exact h2
        have h1 := hminheap s'
        rw [hmin s' hs', htop, min_eq_right le_top] at h1
        exact h1.symm
      · have hcond : ¬ ((⊤ : W) < item.base + c ∨ item.base + c = ⊤) := by
          push_neg
          exact ⟨le_top, hkey⟩
        by_cases hs : s ∈ seen
        · have hbody : stepBody ⊤ beam (fun _ _ => []) heap seen result =
              .cont (heap' ++ [⟨item.base, rest⟩]) seen result := by
            unfold stepBody
            rw [hpop]
            dsimp only
            rw [hedges]
            dsimp only
            rw [if_neg hcond, if_pos hs]
          have hmnew : heapMeasure (heap' ++ [⟨item.base, rest⟩]) =
              heapMeasure heap' + (rest.length + 1) := by
            rw [heapMeasure_append]
            simp [heapMeasure]
          refine Or.inr ⟨heap' ++ [⟨item.base, rest⟩], seen, result, hbody,
            ⟨?_, hres, hseen, hnodup, ?_⟩, by omega, by omega⟩
          · intro it hit
            rcases List.mem_append.mp hit with h1 | h2
            · exact hsort' it h1
            · have : it = (⟨item.base, rest⟩ : AgendaItem σ) := by simpa using h2
              subst this
              exact hrestsort
          · intro s' hs'
            have hne : ¬ s = s' := fun h => hs' (h ▸ hs)
            have hitem' : itemMinTo item s' = itemMinTo ⟨item.base, rest⟩ s' := by
              conv_lhs => rw [show item = (⟨item.base, item.edges⟩ : AgendaItem σ)
                from rfl, hedges]
              exact itemMinTo_cons_ne _ _ _ _ _ hne
            rw [minWTo_append, minWTo_cons]
            have h0 : minWTo ([] : List (AgendaItem σ)) s' = ⊤ := rfl
            rw [h0, min_eq_left le_top, ← hitem', min_comm, ← hminheap s']
            exact hmin s' hs'
        · have hnb : ¬ beam ≤ (result ++ [(s, item.base + c)]).length := by
            rw [List.length_append]
            simp only [List.length_singleton]
            omega
          have hbody : stepBody ⊤ beam (fun _ _ => []) heap seen result =
              .cont ((heap' ++ []) ++ [⟨item.base, rest⟩]) (s :: seen)
                (result ++ [(s, item.base + c)]) := by
            unfold stepBody
            rw [hpop]
            dsimp only
            rw [hedges]
            dsimp only
            rw [if_neg hcond, if_neg hs, if_neg hnb]
          have hub : minWTo heap s ≤ item.base + c :=
            le_trans (minWTo_le heap item (hperm.mem_iff.mpr (List.mem_cons_self _ _)) s)
              (itemMinTo_le item s (s, c) (by rw [hedges]; exact List.mem_cons_self _ _) rfl)
          have hik : itemKey item = item.base + c := by
            rw [show item = (⟨item.base, item.edges⟩ : AgendaItem σ) from rfl, hedges]
            rfl
          have hlb : item.base + c ≤ minWTo heap s := by
            apply le_minWTo
            intro it hit
            apply le_itemMinTo
            intro e he _
            have hle : itemKey item ≤ itemKey it := by
              rcases List.mem_cons.mp (hperm.mem_iff.mp hit) with rfl | htl
              · exact le_refl _
              · exact popMin_key_le hpop it htl
            calc item.base + c = itemKey item := hik.symm
              _ ≤ itemKey it := hle
              _ ≤ it.base + e.2 := itemKey_le_of_sorted it (hsort it hit) e he
          have hkeymin : item.base + c = m s := by
            rw [← hmin s hs]
            exact le_antisymm hlb hub
          have hmnew : heapMeasure ((heap' ++ []) ++ [⟨item.base, rest⟩]) =
              heapMeasure heap' + (rest.length + 1) := by
            rw [heapMeasure_append, heapMeasure_append]
            simp [heapMeasure]
          have hsnot : s ∉ result.map Prod.fst := fun hmem => hs ((hseen s).mpr hmem)
          refine Or.inr ⟨(heap' ++ []) ++ [⟨item.base, rest⟩], s :: seen,
            result ++ [(s, item.base + c)], hbody,
            ⟨?_, ?_, ?_, ?_, ?_⟩, ?_, ?_⟩
          · intro it hit
            rcases List.mem_append.mp hit with h1 | h2
            · rw [List.append_nil] at h1
              exact hsort' it h1
            · have : it = (⟨item.base, rest⟩ : AgendaItem σ) := by simpa using h2
              subst this
              exact hrestsort
          · intro e he
            rcases List.mem_append.mp he with h1 | h2
            · exact hres e h1
            · have : e = (s, item.base + c) := by simpa using h2
              subst this
              exact ⟨hkeymin, hkey⟩
          · intro x
            rw [List.map_append]
            simp only [List.mem_cons, List.mem_append, List.map_cons,
              List.map_nil, List.not_mem_nil, or_false]
            rw [hseen x]
            tauto
          · rw [List.map_append]
            refine List.Nodup.append hnodup (by simp) ?_
            intro a ha hb2
            have : a = s := by simpa using hb2
            subst this
            exact hsnot ha
          · intro s' hs'
            have hne : ¬ s = s' := fun h => hs' (h ▸ List.mem_cons_self _ _)
            have hs'seen : s' ∉ seen := fun h => hs' (List.mem_cons_of_mem _ h)
            have hitem' : itemMinTo item s' = itemMinTo ⟨item.base, rest⟩ s' := by
              conv_lhs => rw [show item = (⟨item.base, item.edges⟩ : AgendaItem σ)
                from rfl, hedges]
              exact itemMinTo_cons_ne _ _ _ _ _ hne
            rw [minWTo_append, minWTo_append, minWTo_cons]
            have h0 : minWTo ([] : List (AgendaItem σ)) s' = ⊤ := rfl
            rw [h0, min_eq_left le_top, min_eq_left le_top, ← hitem', min_comm,
              ← hminheap s']
            exact hmin s' hs'seen
          · omega
          · rw [List.length_append]
            simp only [List.length_singleton]
            omega

theorem dijkstra_final {σ : Type} [DecidableEq σ] {m : σ → W} {seen : List σ}
    {result : List (σ × W)} (hinv : DijkInv m [] seen result) :
    (∀ e ∈ result, e.2 = m e.1 ∧ e.2 ≠ ⊤) ∧ (result.map Prod.fst).Nodup ∧
      (∀ s, m s ≠ ⊤ → s ∈ result.map Prod.fst) := by
  obtain ⟨_, hres, hseen, hnodup, hmin⟩ := hinv
  refine ⟨hres, hnodup, ?_⟩
  intro s hms
  by_contra hns
  have hs : s ∉ seen := fun h => hns ((hseen s).mp h)
  have h1 := hmin s hs
  have h2 : minWTo ([] : List (AgendaItem σ)) s = ⊤ := rfl
  rw [h2] at h1
  exact hms h1.symm

theorem stepInner_dijkstra {σ : Type} [DecidableEq σ] {m : σ → W} {beam : Nat} :
    ∀ (fuel : Nat) (heap : List (AgendaItem σ)) (seen : List σ)
      (result : List (σ × W)),
    DijkInv m heap seen result →
    heapMeasure heap ≤ fuel →
    result.length + heapMeasure heap < beam →
    ∃ r, stepInner ⊤ beam (fun _ _ => []) fuel heap seen result = some r ∧
      (∀ e ∈ r, e.2 = m e.1 ∧ e.2 ≠ ⊤) ∧
      (r.map Prod.fst).Nodup ∧
      (∀ s, m s ≠ ⊤ → s ∈ r.map Prod.fst) := by
  intro fuel
  induction fuel with
  | zero =>
    intro heap seen result hinv hfuel hbeam
    rcases dijkstra_step hinv hbeam with ⟨hdone, hnil⟩ |
      ⟨h2, s2, r2, hcont, hinv2, hlt, hle⟩
    · subst hnil
      exact ⟨result, stepInner_done 0 hdone, dijkstra_final hinv⟩
    · exact absurd hfuel (by omega)
  | succ fuel ih =>
    intro heap seen result hinv hfuel hbeam
    rcases dijkstra_step hinv hbeam with ⟨hdone, hnil⟩ |
      ⟨h2, s2, r2, hcont, hinv2, hlt, hle⟩
    · subst hnil
      exact ⟨result, stepInner_done (fuel + 1) hdone, dijkstra_final hinv⟩
    · rw [stepInner_cont fuel hcont]
      exact ih h2 s2 r2 hinv2 (by omega) (by omega)

theorem mem_ite_sing {α : Type} {P : Prop} [Decidable P] {x e : α}
    (h : e ∈ (if P then [x] else [])) : e = x ∧ P := by
  split at h
  · exact ⟨by simpa using h, by assumption⟩
  · cases h

theorem mem_ite_sing' {α : Type} {P : Prop} [Decidable P] {x e : α}
    (h : e ∈ (if P then [] else [x])) : e = x ∧ ¬ P := by
  split at h
  · cases h
  · exact ⟨by simpa using h, by assumption⟩

theorem levEdgesFrom_facts (query : List Nat) (c : Nat) :
    ∀ (N chars : Nat) (extra : ℚ) (deleted : Bool),
    query.length - chars ≤ N →
    (∀ e ∈ levEdgesFrom query c chars extra deleted,
      extra ≤ e.2 ∧ (chars ≤ query.length → e.1 ≤ query.length)) ∧
    (levEdgesFrom query c chars extra deleted).Pairwise
      (fun e1 e2 => e1.2 ≤ e2.2) := by
  intro N
  induction N with
  | zero =>
    intro chars extra deleted hN
    rw [levEdgesFrom, dif_pos (by omega : chars + 1 ≥ query.length)]
    constructor
    · intro e he
      rcases List.mem_append.mp he with hA | he1
      · obtain ⟨rfl, hP⟩ := mem_ite_sing hA
        exact ⟨by simp, fun _ => by omega⟩
      rcases List.mem_append.mp he1 with hB | he2
      · obtain ⟨rfl, hP⟩ := mem_ite_sing hB
        exact ⟨by show extra ≤ 1 + extra; linarith, fun _ => by omega⟩
      rcases List.mem_append.mp he2 with hC | hR
      · obtain ⟨rfl, _⟩ := mem_ite_sing' hC
        exact ⟨by show extra ≤ 1 + extra; linarith, fun h => h⟩
      · cases hR
    · refine List.pairwise_append.mpr ⟨by split_ifs <;> simp,
        List.pairwise_append.mpr ⟨by split_ifs <;> simp,
          List.pairwise_append.mpr ⟨by split_ifs <;> simp, by simp, ?_⟩, ?_⟩, ?_⟩
      · intro a _ b hb
        cases hb
      · intro a ha b hb
        obtain ⟨rfl, _⟩ := mem_ite_sing ha
        rcases List.mem_append.mp hb with hC | hR
        · obtain ⟨rfl, _⟩ := mem_ite_sing' hC
          simp
        · cases hR
      · intro a ha b hb
        obtain ⟨rfl, _⟩ := mem_ite_sing ha
        rcases List.mem_append.mp hb with hB | he2
        · obtain ⟨rfl, _⟩ := mem_ite_sing hB
          simp only
          linarith
        rcases List.mem_append.mp he2 with hC | hR
        · obtain ⟨rfl, _⟩ := mem_ite_sing' hC
          simp only
          linarith
        · cases hR
  | succ N ih =>
    intro chars extra deleted hN
    by_cases hguard : chars + 1 ≥ query.length
    · rw [levEdgesFrom, dif_pos hguard]
      constructor
      · intro e he
        rcases List.mem_append.mp he with hA | he1
        · obtain ⟨rfl, hP⟩ := mem_ite_sing hA
          exact ⟨by simp, fun _ => by omega⟩
        rcases List.mem_append.mp he1 with hB | he2
        · obtain ⟨rfl, hP⟩ := mem_ite_sing hB
          exact ⟨by show extra ≤ 1 + extra; linarith, fun _ => by omega⟩
        rcases List.mem_append.mp he2 with hC | hR
        · obtain ⟨rfl, _⟩ := mem_ite_sing' hC
          exact ⟨by show extra ≤ 1 + extra; linarith, fun h => h⟩
        · cases hR
      · refine List.pairwise_append.mpr ⟨by split_ifs <;> simp,
          List.pairwise_append.mpr ⟨by split_ifs <;> simp,
            List.pairwise_append.mpr ⟨by split_ifs <;> simp, by simp, ?_⟩, ?_⟩, ?_⟩
        · intro a _ b hb
          cases hb
        · intro a ha b hb
          obtain ⟨rfl, _⟩ := mem_ite_sing ha
          rcases List.mem_append.mp hb with hC | hR
          · obtain ⟨rfl, _⟩ := mem_ite_sing' hC
            simp
          · cases hR
        · intro a ha b hb
          obtain ⟨rfl, _⟩ := mem_ite_sing ha
          rcases List.mem_append.mp hb with hB | he2
          · obtain ⟨rfl, _⟩ := mem_ite_sing hB
            simp only
            linarith
          rcases List.mem_append.mp he2 with hC | hR
          · obtain ⟨rfl, _⟩ := mem_ite_sing' hC
            simp only
            linarith
          · cases hR
    · rw [levEdgesFrom, dif_neg hguard]
      obtain ⟨hrecmem, hrecsort⟩ := ih (chars + 1) (extra + 1) true (by omega)
      have hRlb : ∀ e ∈ levEdgesFrom query c (chars + 1) (extra + 1) true,
          extra + 1 ≤ e.2 := fun e he => (hrecmem e he).1
      have hRtb : ∀ e ∈ levEdgesFrom query c (chars + 1) (extra + 1) true,
          e.1 ≤ query.length := fun e he => (hrecmem e he).2 (by omega)
      constructor
      · intro e he
        rcases List.mem_append.mp he with hA | he1
        · obtain ⟨rfl, hP⟩ := mem_ite_sing hA
          exact ⟨by simp, fun _ => by omega⟩
        rcases List.mem_append.mp he1 with hB | he2
        · obtain ⟨rfl, hP⟩ := mem_ite_sing hB
          exact ⟨by show extra ≤ 1 + extra; linarith, fun _ => by omega⟩
        rcases List.mem_append.mp he2 with hC | hR
        · obtain ⟨rfl, _⟩ := mem_ite_sing' hC
          exact ⟨by show extra ≤ 1 + extra; linarith, fun h => h⟩
        · exact ⟨by linarith [hRlb e hR], fun _ => hRtb e hR⟩
      · refine List.pairwise_append.mpr ⟨by split_ifs <;> simp,
          List.pairwise_append.mpr ⟨by split_ifs <;> simp,
            List.pairwise_append.mpr ⟨by split_ifs <;> simp, hrecsort, ?_⟩,
              ?_⟩, ?_⟩
        · intro a ha b hb
          obtain ⟨rfl, _⟩ := mem_ite_sing' ha
          have := hRlb b hb
          simp only
          linarith
        · intro a ha b hb
          obtain ⟨rfl, _⟩ := mem_ite_sing ha
          rcases List.mem_append.mp hb with hC | hR
          · obtain ⟨rfl, _⟩ := mem_ite_sing' hC
            simp
          · have := hRlb b hR
            simp only
            linarith
        · intro a ha b hb
          obtain ⟨rfl, _⟩ := mem_ite_sing ha
          rcases List.mem_append.mp hb with hB | he2
          · obtain ⟨rfl, _⟩ := mem_ite_sing hB
            simp only
            linarith
          rcases List.mem_append.mp he2 with hC | hR
          · obtain ⟨rfl, _⟩ := mem_ite_sing' hC
            simp only
            linarith
          · have := hRlb b hR
            simp only
            linarith

theorem levIterList_length_le :
    ∀ (fuel : Nat) (m : LevenshteinNextStates),
    (levIterList fuel m).length ≤ fuel := by
  intro fuel
  induction fuel with
  | zero => intro m; simp [levIterList]
  | succ fuel ih =>
    intro m
    rw [levIterList]
    cases h : levNext m with
    | none => simp
    | some p =>
      obtain ⟨e, m'⟩ := p
      simpa using Nat.succ_le_succ (ih m')

theorem levAccept_eq (query : List Nat) (s c : Nat) :
    levAccept query s c = levEdgesFrom query c s 0 false :=
  levIterList_state_eq query c (3 * (query.length + 1) + 5) s 0 false .Match
    (by simp only [stateRank]; omega)

theorem levAccept_facts (query : List Nat) (s c : Nat) :
    (∀ e ∈ levAccept query s c,
      (0 : ℚ) ≤ e.2 ∧ (s ≤ query.length → e.1 ≤ query.length)) ∧
    (levAccept query s c).Pairwise (fun e1 e2 => e1.2 ≤ e2.2) := by
  rw [levAccept_eq]
  exact levEdgesFrom_facts query c query.length s 0 false (by omega)

theorem levAccept_length_le (query : List Nat) (s c : Nat) :
    (levAccept query s c).length ≤ 3 * (query.length + 1) + 5 :=
  levIterList_length_le _ _

theorem levNFA_accept_sorted (query : List Nat) (s c : Nat) :
    ((weightedLevNFA query).accept s c).Pairwise
      (fun e1 e2 => (e1.2 : W) ≤ e2.2) := by
  exact List.Pairwise.map _
    (fun a b hab => WithTop.coe_le_coe.mpr hab) (levAccept_facts query s c).2

theorem levNFA_accept_target (query : List Nat) (s c : Nat)
    (hs : s ≤ query.length) :
    ∀ e ∈ (weightedLevNFA query).accept s c, e.1 ≤ query.length := by
  intro e he
  obtain ⟨a, ha, rfl⟩ := List.mem_map.mp he
  exact ((levAccept_facts query s c).1 a ha).2 hs

theorem levNFA_accept_length (query : List Nat) (s c : Nat) :
    ((weightedLevNFA query).accept s c).length ≤ 3 * (query.length + 1) + 5 := by
  rw [show (weightedLevNFA query).accept s c =
    (levAccept query s c).map (fun e => (e.1, ((e.2 : ℚ) : W))) from rfl,
    List.length_map]
  exact levAccept_length_le query s c

theorem levStepD_top_of_gt (query : List Nat) (D : Nat → W) (c s : Nat)
    (hs : query.length < s) : levStepD query D c s = ⊤ := by
  apply le_antisymm le_top
  apply le_foldr_min
  intro x hx
  obtain ⟨s0, hs0, rfl⟩ := List.mem_map.mp hx
  have hs0le : s0 ≤ query.length := by
    have := List.mem_range.mp hs0
    omega
  apply le_itemMinTo
  intro e he h1
  exact absurd (h1 ▸ levNFA_accept_target query s0 c hs0le e he) (by omega)

theorem minWTo_initHeap (query : List Nat) (fr : List (Nat × W)) (D : Nat → W)
    (c : Nat) (hrep : Represents query.length fr D) (s : Nat) :
    minWTo (initHeap (weightedLevNFA query) fr c) s = levStepD query D c s := by
  obtain ⟨hnodup, hent, hcomp, htop⟩ := hrep
  apply le_antisymm
  · -- min over the heap ≤ each contribution of the ideal step
    apply le_foldr_min
    intro x hx
    obtain ⟨s0, hs0, rfl⟩ := List.mem_map.mp hx
    by_cases hD : D s0 = ⊤
    · rw [hD, show (⟨⊤, (weightedLevNFA query).accept s0 c⟩ : AgendaItem Nat) =
        ⟨⊤, (weightedLevNFA query).accept s0 c⟩ from rfl]
      rw [itemMinTo_top]
      exact le_top
    · have hs0le : s0 ≤ query.length := by
        by_contra h
        exact hD (htop s0 (by omega))
      have hmem := hcomp s0 hs0le hD
      obtain ⟨e, he, he1⟩ := List.mem_map.mp hmem
      have hit : (⟨e.2, (weightedLevNFA query).accept e.1 c⟩ : AgendaItem Nat) ∈
          initHeap (weightedLevNFA query) fr c := List.mem_map_of_mem _ he
      have hval : e.2 = D s0 := he1 ▸ (hent e he).2.1
      calc minWTo (initHeap (weightedLevNFA query) fr c) s
          ≤ itemMinTo ⟨e.2, (weightedLevNFA query).accept e.1 c⟩ s :=
            minWTo_le _ _ hit s
        _ = itemMinTo ⟨D s0, (weightedLevNFA query).accept s0 c⟩ s := by
            rw [hval, he1]
  · -- ideal step ≤ min over the heap
    apply le_minWTo
    intro it hit
    obtain ⟨e, he, rfl⟩ := List.mem_map.mp hit
    have he1 : e.1 < query.length + 1 := by
      have := (hent e he).1
      omega
    have hval : e.2 = D e.1 := (hent e he).2.1
    have : itemMinTo ⟨D e.1, (weightedLevNFA query).accept e.1 c⟩ s ∈
        (List.range (query.length + 1)).map (fun s0 =>
          itemMinTo ⟨D s0, (weightedLevNFA query).accept s0 c⟩ s) :=
      List.mem_map_of_mem _ (List.mem_range.mpr he1)
    calc levStepD query D c s
        ≤ itemMinTo ⟨D e.1, (weightedLevNFA query).accept e.1 c⟩ s :=
          foldr_min_le _ _ this
      _ = itemMinTo ⟨e.2, (weightedLevNFA query).accept e.1 c⟩ s := by rw [hval]

theorem represents_length_le (n : Nat) (fr : List (Nat × W)) (D : Nat → W)
    (hrep : Represents n fr D) : fr.length ≤ n + 1 := by
  obtain ⟨hnodup, hent, _, _⟩ := hrep
  have hsub : fr.map Prod.fst ⊆ List.range (n + 1) := by
    intro x hx
    obtain ⟨e, he, rfl⟩ := List.mem_map.mp hx
    exact List.mem_range.mpr (by have := (hent e he).1; omega)
  have := List.Subperm.length_le (List.subperm_of_subset hnodup hsub)
  rw [List.length_map, List.length_range] at this
  exact this

theorem heapMeasure_initHeap_le (query : List Nat) (fr : List (Nat × W))
    (D : Nat → W) (c : Nat) (hrep : Represents query.length fr D) :
    heapMeasure (initHeap (weightedLevNFA query) fr c) ≤
      (query.length + 1) * (3 * (query.length + 1) + 6) := by
  have hlen := represents_length_le _ _ _ hrep
  have hb : ∀ x ∈ (initHeap (weightedLevNFA query) fr c).map
      (fun it => it.edges.length + 1), x ≤ 3 * (query.length + 1) + 6 := by
    intro x hx
    obtain ⟨it, hit, rfl⟩ := List.mem_map.mp hx
    obtain ⟨e, _, rfl⟩ := List.mem_map.mp hit
    have := levNFA_accept_length query e.1 c
    dsimp only
    omega
  have hsum := List.sum_le_card_nsmul _ _ hb
  rw [List.length_map] at hsum
  have hlen2 : (initHeap (weightedLevNFA query) fr c).length = fr.length := by
    simp [initHeap]
  rw [hlen2, smul_eq_mul] at hsum
  calc heapMeasure (initHeap (weightedLevNFA query) fr c)
      ≤ fr.length * (3 * (query.length + 1) + 6) := hsum
    _ ≤ (query.length + 1) * (3 * (query.length + 1) + 6) :=
        Nat.mul_le_mul_right _ hlen

theorem levBeamDFA_accept_rep (query : List Nat) (D : Nat → W) (beam : Nat)
    (fr : List (Nat × W)) (c : Nat)
    (hrep : Represents query.length fr D)
    (hbeam : levBeamBound query.length ≤ beam) :
    Represents query.length ((levBeamDFA query ⊤ beam).accept fr c)
      (levStepD query D c) := by
  have hsort : EdgesSorted (initHeap (weightedLevNFA query) fr c) := by
    intro it hit
    obtain ⟨e, _, rfl⟩ := List.mem_map.mp hit
    exact levNFA_accept_sorted query e.1 c
  have hinv : DijkInv (levStepD query D c)
      (initHeap (weightedLevNFA query) fr c) [] [] := by
    refine ⟨hsort, by simp, fun x => by simp, by simp, fun s _ => ?_⟩
    exact minWTo_initHeap query fr D c hrep s
  have hmle := heapMeasure_initHeap_le query fr D c hrep
  have hblt : ([] : List (Nat × W)).length +
      heapMeasure (initHeap (weightedLevNFA query) fr c) < beam := by
    simp only [List.length_nil, Nat.zero_add]
    have h1 : (query.length + 1) * (3 * (query.length + 1) + 6) ≤
        (query.length + 1) * (3 * (query.length + 1) + 8) :=
      Nat.mul_le_mul_left _ (by omega)
    calc heapMeasure (initHeap (weightedLevNFA query) fr c)
        ≤ (query.length + 1) * (3 * (query.length + 1) + 6) := hmle
      _ ≤ (query.length + 1) * (3 * (query.length + 1) + 8) := h1
      _ < levBeamBound query.length := by rw [levBeamBound]; omega
      _ ≤ beam := hbeam
  obtain ⟨r, hr, hent, hnodup, hcomp⟩ := stepInner_dijkstra
    (heapMeasure (initHeap (weightedLevNFA query) fr c))
    (initHeap (weightedLevNFA query) fr c) [] [] hinv (le_refl _) hblt
  have hacc : (levBeamDFA query ⊤ beam).accept fr c = r := by
    show (beamAccept (weightedLevNFA query) ⊤ beam
      (heapMeasure (initHeap (weightedLevNFA query) fr c)) fr c).getD [] = r
    rw [show beamAccept (weightedLevNFA query) ⊤ beam
      (heapMeasure (initHeap (weightedLevNFA query) fr c)) fr c =
      stepInner ⊤ beam (fun _ _ => [])
        (heapMeasure (initHeap (weightedLevNFA query) fr c))
        (initHeap (weightedLevNFA query) fr c) [] [] from rfl, hr]
    rfl
  rw [hacc]
  refine ⟨hnodup, ?_, ?_, fun s hs => levStepD_top_of_gt query D c s hs⟩
  · intro e he
    obtain ⟨hval, hfin⟩ := hent e he
    refine ⟨?_, hval, hfin⟩
    by_contra h
    exact hfin (hval.trans (levStepD_top_of_gt query D c e.1 (by omega)))
  · intro s _ hD
    exact hcomp s hD

theorem beamStart_rep (query : List Nat) :
    Represents query.length (beamStart (weightedLevNFA query))
      (fun s => if s = 0 then (0 : W) else ⊤) := by
  refine ⟨by simp [beamStart, weightedLevNFA], ?_, ?_, ?_⟩
  · intro e he
    have : e = (0, (0 : W)) := by simpa [beamStart, weightedLevNFA] using he
    subst this
    exact ⟨Nat.zero_le _, by simp, by simp⟩
  · intro s _ hD
    have hs0 : s = 0 := by
      by_contra h
      exact hD (by simp [h])
    subst hs0
    simp [beamStart, weightedLevNFA]
  · intro s hs
    have : ¬ s = 0 := by omega
    simp [this]

theorem levRun_rep (query : List Nat) (beam : Nat)
    (hbeam : levBeamBound query.length ≤ beam) :
    ∀ (ks : List Nat) (fr : List (Nat × W)) (D : Nat → W),
    Represents query.length fr D →
    Represents query.length (innerRun (levBeamDFA query ⊤ beam) fr ks)
      (ks.foldl (levStepD query) D) := by
  intro ks
  induction ks with
  | nil => intro fr D h; exact h
  | cons c ks ih =>
    intro fr D h
    exact ih _ _ (levBeamDFA_accept_rep query D beam fr c h hbeam)

theorem filterMap_single :
    ∀ (fr : List (Nat × W)) (n : Nat) (w : W),
    (fr.map Prod.fst).Nodup → (n, w) ∈ fr →
    (∀ e ∈ fr, e.1 = n → e.2 = w) →
    fr.filterMap (fun e => if e.1 = n then some e.2 else none) = [w] := by
  intro fr
  induction fr with
  | nil => intro n w _ hmem _; cases hmem
  | cons a t ih =>
    intro n w hnd hmem hval
    rw [List.filterMap_cons]
    by_cases h1 : a.1 = n
    · rw [if_pos h1]
      have hw : a.2 = w := hval a (List.mem_cons_self _ _) h1
      rw [List.map_cons] at hnd
      have hnot : a.1 ∉ t.map Prod.fst := (List.nodup_cons.mp hnd).1
      have htail : t.filterMap (fun e => if e.1 = n then some e.2 else none)
          = [] := by
        rw [List.filterMap_eq_nil_iff]
        intro e he
        rw [if_neg]
        intro h2
        exact hnot (h1 ▸ h2 ▸ List.mem_map_of_mem _ he)
      rw [hw, htail]
    · rw [if_neg h1]
      have hmem' : (n, w) ∈ t := by
        rcases List.mem_cons.mp hmem with h | h
        · exact absurd (congrArg Prod.fst h.symm) h1
        · exact h
      rw [List.map_cons] at hnd
      exact ih n w (List.nodup_cons.mp hnd).2 hmem'
        (fun e he => hval e (List.mem_cons_of_mem _ he))

theorem rep_filterMap (n : Nat) (fr : List (Nat × W)) (D : Nat → W)
    (hrep : Represents n fr D) :
    fr.filterMap (fun e => if e.1 = n then some e.2 else none) =
      if D n = ⊤ then [] else [D n] := by
  obtain ⟨hnodup, hent, hcomp, _⟩ := hrep
  by_cases hD : D n = ⊤
  · rw [if_pos hD, List.filterMap_eq_nil_iff]
    intro e he
    rw [if_neg]
    intro h1
    exact (hent e he).2.2 ((hent e he).2.1.trans (h1 ▸ hD))
  · rw [if_neg hD]
    obtain ⟨e, he, he1⟩ := List.mem_map.mp (hcomp n (le_refl n) hD)
    have hval : e.2 = D n := he1 ▸ (hent e he).2.1
    refine filterMap_single fr n (D n) hnodup ?_ ?_
    · rw [show (n, D n) = e from Prod.ext he1.symm hval.symm]
      exact he
    · intro e' he' h1
      exact h1 ▸ (hent e' he').2.1

theorem getLevWeights_dp (query ks : List Nat) (beam : Nat)
    (hval : ∀ c ∈ ks, ScalarValid c)
    (hbeam : levBeamBound query.length ≤ beam) :
    getLevWeights query ⊤ beam (utf8Encode ks) =
      if levD query ks query.length = ⊤ then none
      else some (levD query ks query.length) := by
  have hrun := utf8Run_encode (levBeamDFA query ⊤ beam) ks
    ((levBeamDFA query ⊤ beam).start) hval
  have hrep := levRun_rep query beam hbeam ks
    ((levBeamDFA query ⊤ beam).start)
    (fun s => if s = 0 then (0 : W) else ⊤) (beamStart_rep query)
  rw [show ks.foldl (levStepD query) (fun s => if s = 0 then (0 : W) else ⊤) =
    levD query ks from rfl] at hrep
  show (match (utf8Run (levBeamDFA query ⊤ beam)
      (utf8Start (levBeamDFA query ⊤ beam)) (utf8Encode ks)).1.filterMap
      (fun e => if e.1 = query.length then some e.2 else none) with
    | [] => none
    | w :: rest => some (rest.foldl min w)) = _
  rw [show utf8Start (levBeamDFA query ⊤ beam) =
    ((levBeamDFA query ⊤ beam).start, []) from rfl, hrun]
  rw [show (innerRun (levBeamDFA query ⊤ beam)
      (levBeamDFA query ⊤ beam).start ks, ([] : List Nat)).1 =
    innerRun (levBeamDFA query ⊤ beam) (levBeamDFA query ⊤ beam).start ks
    from rfl]
  rw [rep_filterMap query.length _ _ hrep]
  by_cases hD : levD query ks query.length = ⊤
  · rw [if_pos hD, if_pos hD]
  · rw [if_neg hD, if_neg hD]
    rfl

/-- C1 (amended): with threshold `+∞` and beam size at least
`levBeamBound |q|` (large enough that the beam cut never fires),
`get_levenshtein_weights` on the UTF-8 encoding of a scalar sequence `ks`
returns exactly the dynamic-programming value `levD q ks |q|`: the minimum
accumulated cost over accepting runs of the weighted Levenshtein NFA's own
edge relation, in which deletions can only be taken before a match,
substitute or insert edge on a consumed input character; it returns `none`
(modelling the source's `unwrap` panic) when no accepting state carries a
finite cost.  This value is NOT in general the Levenshtein edit distance
between `q` and `ks` (see the counterexample): trailing deletions of
query characters are not reachable, so the returned cost can exceed the
true distance. -/
theorem lev_weights_beam_dp (query ks : List Nat) (beam : Nat)
    (hval : ∀ c ∈ ks, ScalarValid c)
    (hbeam : levBeamBound query.length ≤ beam) :
    getLevWeights query ⊤ beam (utf8Encode ks) =
      if levD query ks query.length = ⊤ then none
      else some (levD query ks query.length) :=
  getLevWeights_dp query ks beam hval hbeam

/-- Witness for `lev_weights_beam_dp`: query "ab", candidate "a",
beam `levBeamBound 2 = 53`. -/
theorem lev_weights_beam_dp_witness :
    (∀ c ∈ ([97] : List Nat), ScalarValid c) ∧
    levBeamBound ([97, 98] : List Nat).length ≤ 53 ∧
    getLevWeights [97, 98] ⊤ 53 (utf8Encode [97]) =
      (if levD [97, 98] [97] ([97, 98] : List Nat).length = ⊤ then none
       else some (levD [97, 98] [97] ([97, 98] : List Nat).length)) :=
  ⟨by decide, by decide,
    lev_weights_beam_dp [97, 98] [97] 53 (by decide) (by decide)⟩

/-- C1 counterexample: for query "ab" and candidate "a" (valid UTF-8),
with threshold `+∞` and a beam too large to ever cut, the replayed
minimum weight over matching states is `2` (delete cannot follow the
match of 'a', so the run match + substitute-with-nothing is impossible
and the best accepting runs cost 2), while the true Levenshtein distance
between "ab" and "a" is `1`; hence `get_levenshtein_weights` does not
compute the Levenshtein distance. -/
theorem lev_weights_counterexample :
    getLevWeights [97, 98] ⊤ 53 (utf8Encode [97]) = some (((2 : ℚ) : W)) ∧
    levDist [97, 98] [97] = 1 ∧
    getLevWeights [97, 98] ⊤ 53 (utf8Encode [97]) ≠
      some (((levDist [97, 98] [97] : ℚ) : W)) := by
  have e1 : levNext ⟨0, [97, 98], 97, .Match, 0, false⟩ =
      some ((1, 0), ⟨0, [97, 98], 97, .Substitute, 0, false⟩) := by
    rw [levNext.eq_def]; norm_num
  have e2 : levNext ⟨0, [97, 98], 97, .Substitute, 0, false⟩ =
      some ((1, 1), ⟨0, [97, 98], 97, .Insert, 0, false⟩) := by
    rw [levNext.eq_def]; norm_num
  have e3 : levNext ⟨0, [97, 98], 97, .Insert, 0, false⟩ =
      some ((0, 1), ⟨0, [97, 98], 97, .Delete, 0, false⟩) := by
    rw [levNext.eq_def]; norm_num
  have e4 : levNext ⟨0, [97, 98], 97, .Delete, 0, false⟩ =
      some ((2, 2), ⟨1, [97, 98], 97, .Insert, 1, true⟩) := by
    rw [levNext.eq_def]; norm_num
    rw [levNext.eq_def]; norm_num
    rw [levNext.eq_def]; norm_num
  have e5 : levNext ⟨1, [97, 98], 97, .Insert, 1, true⟩ = none := by
    rw [levNext.eq_def]; norm_num
    rw [levNext.eq_def]; norm_num
  have hA : levAccept [97, 98] 0 97 = [(1, 0), (1, 1), (0, 1), (2, 2)] := by
    show levIterList 14 ⟨0, [97, 98], 97, .Match, 0, false⟩ = _
    simp only [levIterList, e1, e2, e3, e4, e5]
  have hacc : (weightedLevNFA [97, 98]).accept 0 97 =
      [(1, ((0:ℚ):W)), (1, ((1:ℚ):W)), (0, ((1:ℚ):W)), (2, ((2:ℚ):W))] := by
    show (levAccept [97, 98] 0 97).map (fun e => (e.1, ((e.2 : ℚ) : W))) = _
    rw [hA]
    simp
  have hmt : ∀ x : W, min x ⊤ = x := fun x => min_eq_left le_top
  have hD : levD [97, 98] [97] 2 = ((2:ℚ) : W) := by
    show levStepD [97, 98] (fun s => if s = 0 then (0:W) else ⊤) 97 2 = _
    simp only [levStepD]
    rw [show List.range (([97, 98] : List Nat).length + 1) = [0, 1, 2]
      by decide]
    simp only [List.map_cons, List.map_nil]
    norm_num
    rw [itemMinTo_top, itemMinTo_top]
    norm_num [itemMinTo, hacc, List.filterMap_cons, hmt]
  have hlev : levDist [97, 98] [97] = 1 := by
    rw [levDist]
    norm_num
    rw [levDist]
    rfl
  have h := getLevWeights_dp [97, 98] [97] 53 (by decide) (by decide)
  rw [show ([97, 98] : List Nat).length = 2 from rfl, hD,
    if_neg (by exact WithTop.coe_ne_top)] at h
  refine ⟨h, hlev, ?_⟩
  rw [h, hlev]
  norm_num

end FEA
